import Mathlib

/-!
Verification development for the openIMIS tools module (`tools/services.py`):
a shallow embedding of the bulk upload / reconciliation engine
(`upload_simple_data`, `upload_locations`, `upload_health_facilities`,
`load_locations_xml`, `return_upload_result_json`) together with theorems
about the behaviour of these functions.

The persistent store (Django ORM) is modelled as a list of records carrying a
row id, a natural-key `code`, a bag of string fields, a soft-delete timestamp
`validityTo` (a row is valid iff it is `none`, mirroring `filter_validity()`)
and an audit user stamp.  Store writes are additionally recorded in an
explicit effect trace so that frame and ordering properties (dry runs write
nothing, history snapshots precede saves, archival is one bulk operation)
can be stated.
-/

namespace Tools

/-- The four upload strategies from `tools.constants`
(`STRATEGY_INSERT`, `STRATEGY_UPDATE`, `STRATEGY_INSERT_UPDATE`,
`STRATEGY_INSERT_UPDATE_DELETE`). -/
inductive Strategy where
  | insert
  | update
  | insertUpdate
  | insertUpdateDelete
deriving DecidableEq, Repr

/-- A stored row: row id, natural key `code`, remaining fields as an ordered
key/value list, an optional parent row id (locations), the soft-delete
timestamp `validity_to` and the audit user id. -/
structure Record where
  rid : Nat
  code : String
  fields : List (String × String) := []
  parent : Option Nat := none
  validityTo : Option Nat := none
  auditUserId : Int := 0
deriving DecidableEq, Repr

/-- One parsed candidate entry: the dict produced by the XML parsers.
`code` is the natural key; `parent` is the optional parent code carried by
location entries; every other key/value pair lives in `fields`. -/
structure Entry where
  code : String
  fields : List (String × String) := []
  parent : Option String := none
deriving DecidableEq, Repr

/-- A store write, recorded in order of execution. -/
inductive Effect where
  | create (rid : Nat) (code : String) (fields : List (String × String)) (uid : Int)
  | saveHistory (snapshot : Record)
  | save (old upd : Record)
  | bulkArchive (rows : List Record) (uid : Int) (now : Nat)
  | createUserDistrict (uid : Int) (locRid : Nat)
deriving DecidableEq, Repr

/-- The `UploadResult` dataclass. -/
structure UploadResult where
  errors : List String
  sent : Nat := 0
  created : Nat := 0
  updated : Nat := 0
  deleted : Nat := 0
deriving DecidableEq, Repr

/-- `filter_validity()`: a row is currently valid iff `validity_to` is null. -/
def isValid (r : Record) : Bool := r.validityTo.isNone

/-- One `Model.objects.filter(code__in=codes, *filter_validity())` query.
The optional `limit` models the backend bound on IN-list size described in
spec section 4.2 (an external property of the storage backend, which is an
external collaborator): a single query over more codes than the bound
silently returns no rows.  The backend used by the source directly is
modelled by `limit = none`. -/
def queryValidIn (limit : Option Nat) (store : List Record) (codes : List String) :
    List Record :=
  match limit with
  | some n => if n < codes.length then []
              else store.filter (fun r => isValid r && codes.contains r.code)
  | none => store.filter (fun r => isValid r && codes.contains r.code)

/-- Lookup in the dict comprehension `{x.code: x for x in rows}`: for each
code the last row of the query result wins. -/
def mapGet (rows : List Record) (c : String) : Option Record :=
  (rows.filter (fun r => r.code == c)).getLast?

/-- The existence lookup of `upload_simple_data` (lines 579-584): one single
unchunked `code__in` query over all candidate codes, turned into a dict. -/
def dbEntriesGet (store : List Record) (codes : List String) (c : String) :
    Option Record :=
  mapGet (queryValidIn none store codes) c

/-- `setattr(existing, key, value)` on the modelled field bag: overwrite the
key if present, otherwise add it. -/
def setField (fs : List (String × String)) (k v : String) :
    List (String × String) :=
  if fs.any (fun p => p.1 == k) then fs.map (fun p => if p.1 == k then (k, v) else p)
  else fs ++ [(k, v)]

/-- `[setattr(existing, key, entry[key]) for key in entry]`: shallow merge of
every candidate key onto the record. -/
def setFields (fs upd : List (String × String)) : List (String × String) :=
  upd.foldl (fun acc p => setField acc p.1 p.2) fs

/-- The in-place update performed on an existing row by the per-candidate
loop of `upload_simple_data`: every key present in the entry is assigned onto
the record (the `code` key is always present). -/
def applyEntry (ex : Record) (e : Entry) : Record :=
  { ex with code := e.code, fields := setFields ex.fields e.fields }

/-- `Model.objects.create(audit_user_id=..., **entry)`: a fresh valid row. -/
def mkRecord (rid : Nat) (uid : Int) (e : Entry) : Record :=
  { rid := rid, code := e.code, fields := e.fields, parent := none,
    validityTo := none, auditUserId := uid }

/-- A fresh row id, larger than every row id already in the store. -/
def freshRid (store : List Record) : Nat :=
  (store.map Record.rid).foldr max 0 + 1

/-- Renders a single-quoted code, as the f-strings of the source do. -/
def quoted (s : String) : String := "\x27" ++ s ++ "\x27"

/-- The running state of one upload call: the live store, the next fresh row
id, the write trace, the accumulated `UploadResult` and the `ids` list of all
candidate codes seen so far. -/
structure St where
  store : List Record
  next : Nat
  trace : List Effect
  res : UploadResult
  ids : List String
deriving DecidableEq, Repr

/-- The body of the per-candidate loop of `upload_simple_data`
(services.py lines 586-614). -/
def processEntry (dbGet : String → Option Record) (sg : String)
    (strategy : Strategy) (dryRun : Bool) (uid : Int) (st : St) (e : Entry) : St :=
  let existing := dbGet e.code
  let st := { st with res := { st.res with sent := st.res.sent + 1 },
                      ids := st.ids ++ [e.code] }
  match existing with
  | some ex =>
    if strategy = .insert then
      { st with res := { st.res with
          errors := st.res.errors ++ [sg ++ " " ++ quoted ex.code ++ " already exists"] } }
    else
      if dryRun then
        { st with res := { st.res with updated := st.res.updated + 1 } }
      else
        let upd := applyEntry ex e
        { st with
          store := st.store.map (fun r => if r.rid = ex.rid then upd else r),
          trace := st.trace ++ [.saveHistory ex, .save ex upd],
          res := { st.res with updated := st.res.updated + 1 } }
  | none =>
    if strategy = .update then
      { st with res := { st.res with
          errors := st.res.errors ++ [sg ++ " " ++ quoted e.code ++ " does not exist"] } }
    else
      if dryRun then
        { st with res := { st.res with created := st.res.created + 1 } }
      else
        { st with
          store := st.store ++ [mkRecord st.next uid e],
          next := st.next + 1,
          trace := st.trace ++ [.create st.next e.code e.fields uid],
          res := { st.res with created := st.res.created + 1 } }

/-- The condition selecting the rows archived by the INSERT_UPDATE_DELETE
sweep: `filter(~Q(code__in=ids)).filter(validity_to__isnull=True)`. -/
def archiveFilter (ids : List String) (r : Record) : Bool :=
  !(ids.contains r.code) && r.validityTo.isNone

/-- `upload_simple_data` (services.py lines 576-625): seeds the result with
the parsing errors, resolves existing rows with one unchunked query, runs the
per-candidate loop, and under INSERT_UPDATE_DELETE archives every valid row
whose code was not among the candidates via one bulk
`qs.update(validity_to=now, audit_user_id=...)`. -/
def uploadSimpleData (uid : Int) (sg : String) (strategy : Strategy)
    (dryRun : Bool) (now : Nat) (store0 : List Record) (entries : List Entry)
    (parsingErrors : List String) : St :=
  let codes := entries.map Entry.code
  let dbGet := fun c => dbEntriesGet store0 codes c
  let st0 : St := { store := store0, next := freshRid store0, trace := [],
                    res := { errors := parsingErrors }, ids := [] }
  let st := entries.foldl (processEntry dbGet sg strategy dryRun uid) st0
  if strategy = .insertUpdateDelete then
    let qs := st.store.filter (archiveFilter st.ids)
    let st1 := { st with res := { st.res with deleted := qs.length } }
    if dryRun then st1
    else
      { st1 with
        store := st1.store.map (fun r =>
          if archiveFilter st1.ids r then
            { r with validityTo := some now, auditUserId := uid }
          else r),
        trace := st1.trace ++ [.bulkArchive qs uid now] }
  else st

/-- Fuel-driven slicing loop behind `chunkList`; the fuel (instantiated with
the list length, which bounds the number of slices for a positive size)
makes the recursion structural. -/
def chunkListFuel : Nat → List α → Nat → List (List α)
  | 0, _, _ => []
  | _ + 1, [], _ => []
  | fuel + 1, a :: l, size => (a :: l).take size :: chunkListFuel fuel ((a :: l).drop size) size

/-- `__chunk_list(l, size=1000)` (services.py lines 731-732): successive
slices of the given size.  (`size = 0` never occurs in the source; the model
returns no chunks for it.) -/
def chunkList (l : List α) (size : Nat) : List (List α) :=
  if size = 0 then [] else chunkListFuel l.length l size

/-- The chunked existence resolution of `upload_locations` (lines 744-748):
one `code__in` query per chunk, the partial dicts merged with `dict.update`
(later chunks overwrite earlier ones, hence the concatenation feeding
`mapGet`, where the last row wins). -/
def chunkedRows (limit : Option Nat) (store : List Record) (codes : List String)
    (size : Nat) : List Record :=
  (chunkList codes size).foldl (fun acc ch => acc ++ queryValidIn limit store ch) []

/-- The memo of a `functools.lru_cache`-decorated point lookup keyed by a
code. -/
abbrev Memo := List (String × Option Record)

/-- `get_parent_location(code)` (lines 726-728):
`Location.objects.filter(code=code, *filter_validity()).first()`, memoized by
`functools.lru_cache(None)`.  Returns the possibly-extended memo together
with the lookup result; a miss queries the given (live) location store. -/
def getParentLocation (store : List Record) (memo : Memo) (c : String) :
    Memo × Option Record :=
  match memo.find? (fun p => p.1 == c) with
  | some p => (memo, p.2)
  | none =>
      let r := (store.filter (fun x => x.code == c && isValid x)).head?
      (memo ++ [(c, r)], r)

/-- The running state of one `upload_locations` call: live location store,
next fresh row id, write trace, accumulated result and the
`get_parent_location` memo. -/
structure LSt where
  store : List Record
  next : Nat
  trace : List Effect
  res : UploadResult
  memo : Memo
deriving DecidableEq, Repr

/-- `Location.objects.create(audit_user_id=..., **loc)`: the `parent` key of
the dict was replaced by the resolved parent row before the create. -/
def mkLocRecord (rid : Nat) (uid : Int) (e : Entry) (pid : Option Nat) : Record :=
  { rid := rid, code := e.code, fields := e.fields, parent := pid,
    validityTo := none, auditUserId := uid }

/-- The in-place update performed on an existing location: every key of the
dict is assigned onto the record; the `parent` key is present (and assigned)
exactly when the entry carried a parent code, in which case it holds the
resolved parent row. -/
def applyLocEntry (ex : Record) (e : Entry) (pid : Option Nat) : Record :=
  { ex with
    code := e.code,
    fields := setFields ex.fields e.fields,
    parent := (match pid with | some p => some p | none => ex.parent) }

/-- The body of the per-candidate loop of `upload_locations`
(services.py lines 753-789). -/
def processLocation (dbGet : String → Option Record) (strategy : Strategy)
    (dryRun : Bool) (uid : Int) (st : LSt) (loc : Entry) : LSt :=
  let st := { st with res := { st.res with sent := st.res.sent + 1 } }
  let existing := dbGet loc.code
  let rejected : Option LSt :=
    match existing with
    | some ex =>
        if strategy = .insert then
          some { st with res := { st.res with
            errors := st.res.errors ++ [ex.code ++ " already exists"] } }
        else none
    | none =>
        if strategy = .update then
          some { st with res := { st.res with
            errors := st.res.errors ++ [loc.code ++ " does not exist"] } }
        else none
  match rejected with
  | some st1 => st1
  | none =>
    let resolved : LSt × Option (Option Nat) :=
      match loc.parent with
      | none => (st, some none)
      | some pc =>
          let mr := getParentLocation st.store st.memo pc
          let st1 := { st with memo := mr.1 }
          match mr.2 with
          | none =>
              ({ st1 with res := { st1.res with
                 errors := st1.res.errors ++ ["Parent " ++ pc ++ " does not exist"] } },
               none)
          | some prec => (st1, some (some prec.rid))
    match resolved with
    | (st1, none) => st1
    | (st1, some pid) =>
      if strategy = .insert ∨ existing.isNone then
        if dryRun then
          { st1 with res := { st1.res with created := st1.res.created + 1 } }
        else
          let row := mkLocRecord st1.next uid loc pid
          let districtEffects : List Effect :=
            if loc.fields.lookup "type" == some "D" then
              [.createUserDistrict uid st1.next]
            else []
          { st1 with
            store := st1.store ++ [row],
            next := st1.next + 1,
            trace := st1.trace ++ [.create st1.next loc.code loc.fields uid]
                     ++ districtEffects,
            res := { st1.res with created := st1.res.created + 1 } }
      else
        match existing with
        | some ex =>
          if dryRun then
            { st1 with res := { st1.res with updated := st1.res.updated + 1 } }
          else
            let upd := applyLocEntry ex loc pid
            { st1 with
              store := st1.store.map (fun r => if r.rid = ex.rid then upd else r),
              trace := st1.trace ++ [.saveHistory ex, .save ex upd],
              res := { st1.res with updated := st1.res.updated + 1 } }
        | none => st1

/-- `upload_locations` (services.py lines 735-791): seeds the result with the
parsing errors, resolves existing rows with the chunked lookup (chunk size
1000), clears the `get_parent_location` memo (`cache_clear()`, line 750) and
runs the per-candidate loop.  `memo0` is the process-wide memo as it stood
when the call began.  Note there is no deletion sweep in this path. -/
def uploadLocations (uid : Int) (strategy : Strategy) (dryRun : Bool)
    (store0 : List Record) (entries : List Entry) (parsingErrors : List String)
    (_memo0 : Memo) : LSt :=
  let ids := entries.map Entry.code
  let existingRows := chunkedRows none store0 ids 1000
  let dbGet := fun c => mapGet existingRows c
  let cleared : Memo := []
  let st0 : LSt := { store := store0, next := freshRid store0, trace := [],
                     res := { errors := parsingErrors }, memo := cleared }
  entries.foldl (processLocation dbGet strategy dryRun uid) st0

/-- A medical pricelist row (`ServicesPricelist` / `ItemsPricelist`), looked
up by name. -/
structure PLRecord where
  rid : Nat
  name : String
  validityTo : Option Nat := none
deriving DecidableEq, Repr

/-- The memo of the `functools.lru_cache` on `get_pricelist`, keyed by the
`(name, type)` argument pair. -/
abbrev PLMemo := List ((String × String) × Option PLRecord)

/-- `get_pricelist(name, type)` (services.py lines 854-859): first valid
pricelist of the given type with that name, memoized by
`functools.lru_cache(None)`.  A type other than `services` / `items` falls
off the end of the function and yields `None`. -/
def getPricelist (servicesPL itemsPL : List PLRecord) (memo : PLMemo)
    (name typ : String) : PLMemo × Option PLRecord :=
  match memo.find? (fun p => p.1 == (name, typ)) with
  | some p => (memo, p.2)
  | none =>
      let rows := if typ == "services" then servicesPL
                  else if typ == "items" then itemsPL
                  else []
      let r := (rows.filter (fun x => x.name == name && x.validityTo.isNone)).head?
      (memo ++ [((name, typ), r)], r)

/-- A health facility row.  `location`, `servicesPricelist` and
`itemsPricelist` hold row ids of the referenced location / pricelists. -/
structure HFRecord where
  rid : Nat
  code : String
  fields : List (String × String) := []
  location : Option Nat := none
  servicesPricelist : Option Nat := none
  itemsPricelist : Option Nat := none
  validityTo : Option Nat := none
  auditUserId : Int := 0
deriving DecidableEq, Repr

/-- A store write on the health facility table. -/
inductive HFEffect where
  | create (row : HFRecord)
  | saveHistory (snapshot : HFRecord)
  | save (old upd : HFRecord)
deriving DecidableEq, Repr

/-- The single `code__in` query of `upload_health_facilities`
(lines 874-879). -/
def hfQueryValidIn (store : List HFRecord) (codes : List String) : List HFRecord :=
  store.filter (fun r => r.validityTo.isNone && codes.contains r.code)

/-- Lookup in the dict `{x.code: x for x in rows}` over health facility
rows. -/
def hfMapGet (rows : List HFRecord) (c : String) : Option HFRecord :=
  (rows.filter (fun r => r.code == c)).getLast?

/-- `dict.pop(key)` on the modelled field bag: the value when present, and
the bag with the key removed.  A `none` first component corresponds to the
KeyError Python raises for a missing key. -/
def popField (fs : List (String × String)) (k : String) :
    Option String × List (String × String) :=
  (fs.lookup k, fs.filter (fun p => p.1 != k))

/-- The running state of one `upload_health_facilities` call: live health
facility store, next fresh row id, write trace, accumulated result, the
`get_parent_location` memo `pm` and the `get_pricelist` memo `qm`. -/
structure HSt where
  store : List HFRecord
  next : Nat
  trace : List HFEffect
  res : UploadResult
  pm : Memo
  qm : PLMemo
deriving DecidableEq, Repr

/-- A fresh health facility row id. -/
def hfFreshRid (store : List HFRecord) : Nat :=
  (store.map HFRecord.rid).foldr max 0 + 1

/-- `HealthFacility.objects.create(offline=False, audit_user_id=..., **facility)`:
the dict now carries `location` and the optional pricelist ids (`spl` / `ipl`
are `none` when the corresponding pricelist-name key was absent from the
upload, in which case the column keeps its default). -/
def mkHFRecord (rid : Nat) (uid : Int) (code : String)
    (fs : List (String × String)) (loc : Nat) (spl ipl : Option (Option Nat)) :
    HFRecord :=
  { rid := rid, code := code, fields := fs, location := some loc,
    servicesPricelist := spl.getD none, itemsPricelist := ipl.getD none,
    validityTo := none, auditUserId := uid }

/-- The in-place update performed on an existing health facility: every key
of the processed dict is assigned onto the record. -/
def applyHFEntry (ex : HFRecord) (code : String) (fs : List (String × String))
    (loc : Nat) (spl ipl : Option (Option Nat)) : HFRecord :=
  { ex with
    code := code,
    fields := setFields ex.fields fs,
    location := some loc,
    servicesPricelist := (match spl with | some v => v | none => ex.servicesPricelist),
    itemsPricelist := (match ipl with | some v => v | none => ex.itemsPricelist) }

/-- The cross-reference resolution and write of one health facility candidate
(services.py lines 892-933), reached after the strategy checks.  Mirrors the
source faithfully, including the `KeyError` paths: `facility.pop("district_code")`
raises when the key is absent, and the `"Location ... does not exist"` error
message reads `facility['district_code']` after that very key was popped,
raising as well. -/
def hfResolveAndWrite (locStore : List Record) (servicesPL itemsPL : List PLRecord)
    (strategy : Strategy) (dryRun : Bool) (uid : Int) (st : HSt) (facility : Entry)
    (existing : Option HFRecord) : Except String HSt :=
  let popped := popField facility.fields "district_code"
  match popped.1 with
  | none => .error "KeyError: district_code"
  | some dc =>
    let pm1 := (getParentLocation locStore st.pm dc).1
    let location := (getParentLocation locStore st.pm dc).2
    let st := { st with pm := pm1 }
    match location with
    | none => .error "KeyError: district_code"
    | some locRec =>
      let poppedS := popField popped.2 "services_pricelist_name"
      let afterS : HSt × List (String × String) × Option (Option Nat) :=
        match poppedS.1 with
        | some n =>
            let mr := getPricelist servicesPL itemsPL st.qm n "services"
            ({ st with qm := mr.1 }, poppedS.2, some (mr.2.map PLRecord.rid))
        | none => (st, popped.2, none)
      let st1 := afterS.1
      let poppedI := popField afterS.2.1 "items_pricelist_name"
      let afterI : HSt × List (String × String) × Option (Option Nat) :=
        match poppedI.1 with
        | some n =>
            let mr := getPricelist servicesPL itemsPL st1.qm n "items"
            ({ st1 with qm := mr.1 }, poppedI.2, some (mr.2.map PLRecord.rid))
        | none => (st1, afterS.2.1, none)
      let st2 := afterI.1
      let fs := afterI.2.1
      let spl := afterS.2.2
      let ipl := afterI.2.2
      if strategy = .insert then
        if dryRun then
          .ok { st2 with res := { st2.res with created := st2.res.created + 1 } }
        else
          let row := mkHFRecord st2.next uid facility.code fs locRec.rid spl ipl
          .ok { st2 with
                store := st2.store ++ [row],
                next := st2.next + 1,
                trace := st2.trace ++ [.create row],
                res := { st2.res with created := st2.res.created + 1 } }
      else
        match existing with
        | some ex =>
          if dryRun then
            .ok { st2 with res := { st2.res with updated := st2.res.updated + 1 } }
          else
            let upd := applyHFEntry ex facility.code fs locRec.rid spl ipl
            .ok { st2 with
                  store := st2.store.map (fun r => if r.rid = ex.rid then upd else r),
                  trace := st2.trace ++ [.saveHistory ex, .save ex upd],
                  res := { st2.res with updated := st2.res.updated + 1 } }
        | none =>
          if dryRun then
            .ok { st2 with res := { st2.res with created := st2.res.created + 1 } }
          else
            let row := mkHFRecord st2.next uid facility.code fs locRec.rid spl ipl
            .ok { st2 with
                  store := st2.store ++ [row],
                  next := st2.next + 1,
                  trace := st2.trace ++ [.create row],
                  res := { st2.res with created := st2.res.created + 1 } }

/-- The body of the per-candidate loop of `upload_health_facilities`
(services.py lines 880-933): strategy checks, then cross-reference
resolution and the write. -/
def processHealthFacility (dbGet : String → Option HFRecord)
    (locStore : List Record) (servicesPL itemsPL : List PLRecord)
    (strategy : Strategy) (dryRun : Bool) (uid : Int) (st : HSt)
    (facility : Entry) : Except String HSt :=
  let existing := dbGet facility.code
  let st := { st with res := { st.res with sent := st.res.sent + 1 } }
  match existing with
  | some ex =>
    if strategy = .insert then
      .ok { st with res := { st.res with
        errors := st.res.errors ++
          ["Health facility " ++ quoted ex.code ++ " already exists"] } }
    else
      hfResolveAndWrite locStore servicesPL itemsPL strategy dryRun uid st
        facility existing
  | none =>
    if strategy = .update then
      .ok { st with res := { st.res with
        errors := st.res.errors ++
          ["Health facility " ++ quoted facility.code ++ " does not exist"] } }
    else
      hfResolveAndWrite locStore servicesPL itemsPL strategy dryRun uid st
        facility existing

/-- The loop of `upload_health_facilities` over all parsed candidates; an
uncaught exception from one iteration aborts the whole call. -/
def processHealthFacilities (dbGet : String → Option HFRecord)
    (locStore : List Record) (servicesPL itemsPL : List PLRecord)
    (strategy : Strategy) (dryRun : Bool) (uid : Int) :
    List Entry → HSt → Except String HSt
  | [], st => .ok st
  | f :: rest, st =>
    match processHealthFacility dbGet locStore servicesPL itemsPL strategy
        dryRun uid st f with
    | .error e => .error e
    | .ok st1 =>
        processHealthFacilities dbGet locStore servicesPL itemsPL strategy
          dryRun uid rest st1

/-- `upload_health_facilities` (services.py lines 862-936): clears the
`get_parent_location` memo (`cache_clear()`, line 863) — but not the
`get_pricelist` memo, which keeps whatever `qm0` an earlier call left behind
— seeds the result with the parsing errors, resolves existing rows with one
unchunked query and runs the per-candidate loop. -/
def uploadHealthFacilities (uid : Int) (strategy : Strategy) (dryRun : Bool)
    (locStore : List Record) (servicesPL itemsPL : List PLRecord)
    (hfStore0 : List HFRecord) (entries : List Entry)
    (parsingErrors : List String) (_pm0 : Memo) (qm0 : PLMemo) :
    Except String HSt :=
  let dbGet := fun c => hfMapGet (hfQueryValidIn hfStore0 (entries.map Entry.code)) c
  let cleared : Memo := []
  let st0 : HSt := { store := hfStore0, next := hfFreshRid hfStore0, trace := [],
                     res := { errors := parsingErrors }, pm := cleared, qm := qm0 }
  processHealthFacilities dbGet locStore servicesPL itemsPL strategy dryRun uid
    entries st0

/-- The `defaultdict(list)` built by `load_locations_xml`, keyed by location
type (`R` regions, `D` districts, `W` municipalities, `V` villages). -/
structure LoadedLocations where
  r : List Entry := []
  d : List Entry := []
  w : List Entry := []
  v : List Entry := []
deriving DecidableEq, Repr

/-- `result[data["type"]].append(data)`. -/
def addLoc (acc : LoadedLocations) (typ : String) (e : Entry) : LoadedLocations :=
  if typ == "R" then { acc with r := acc.r ++ [e] }
  else if typ == "D" then { acc with d := acc.d ++ [e] }
  else if typ == "W" then { acc with w := acc.w ++ [e] }
  else if typ == "V" then { acc with v := acc.v ++ [e] }
  else acc

/-- One XML location element after the field extraction of lines 687-709 of
`load_locations_xml`: `none` models an element for which the extraction
raised (the `except ValueError` branch, "A field is missing"); otherwise the
extracted `data` dict (its `type` key sits in `fields`, its parent code in
`parent`). -/
abbrev RawLocElement := Option Entry

/-- The per-element validation of `load_locations_xml` (services.py
lines 684-723), translated branch for branch: an extraction failure is
recorded and skipped; an empty code appends "Location has no code" (with no
`continue` in the source); a code already seen case-insensitively is
recorded and skipped; otherwise the entry is appended to the result. -/
def loadLocationsStep (acc : LoadedLocations × List String × List String)
    (elm : RawLocElement) : LoadedLocations × List String × List String :=
  let result := acc.1
  let errors := acc.2.1
  let ids := acc.2.2
  match elm with
  | none => (result, errors ++ ["A field is missing"], ids)
  | some data =>
    let errors1 := if data.code == "" then errors ++ ["Location has no code"]
                   else errors
    if ids.contains data.code.toLower then
      (result,
       errors1 ++ ["Code " ++ quoted data.code ++ " already exists in the list"],
       ids)
    else
      (addLoc result ((data.fields.lookup "type").getD "") data,
       errors1, ids ++ [data.code.toLower])

/-- `load_locations_xml` (services.py lines 673-723): folds the validation
over all Region/District/Municipality/Village elements in document order and
returns the grouped result together with the error list. -/
def loadLocationsXml (elems : List RawLocElement) :
    LoadedLocations × List String :=
  let out := elems.foldl loadLocationsStep ({}, [], [])
  (out.1, out.2.1)

/-- The totals of a django-import-export `Result` as read by
`return_upload_result_json` (lines 1719-1728). -/
structure ImportTotals where
  totalRows : Nat
  new : Nat
  upd : Nat
  del : Nat
  skip : Nat
  invalid : Nat
  err : Nat
deriving DecidableEq, Repr

/-- The `data` object of the rendered JSON body. -/
structure DataCounts where
  sent : Nat
  created : Nat
  updated : Nat
  deleted : Nat
  skipped : Nat
  invalid : Nat
  failed : Nat
deriving DecidableEq, Repr

/-- The rendered JSON body (`JsonResponse(data=response_data)`). -/
structure JsonUploadResponse where
  success : Bool
  data : DataCounts
  errors : List String
deriving DecidableEq, Repr

/-- `return_upload_result_json` (services.py lines 1661-1731): raises
`RuntimeError` when both kinds of result are given or when neither is;
otherwise renders the one given result into the stable JSON shape (an XML
`UploadResult` always renders `skipped = invalid = failed = 0`). -/
def returnUploadResultJson (success : Bool) (xmlResult : Option UploadResult)
    (otherTypesResult : Option ImportTotals) (otherTypesErrors : List String) :
    Except String JsonUploadResponse :=
  match xmlResult, otherTypesResult with
  | some _, some _ => .error "You cannot provide two different types of upload result"
  | none, none => .error "You must provide one type of upload result"
  | some r, none =>
      .ok { success := success,
            data := { sent := r.sent, created := r.created, updated := r.updated,
                      deleted := r.deleted, skipped := 0, invalid := 0, failed := 0 },
            errors := r.errors }
  | none, some o =>
      .ok { success := success,
            data := { sent := o.totalRows, created := o.new, updated := o.upd,
                      deleted := o.del, skipped := o.skip, invalid := o.invalid,
                      failed := o.err },
            errors := otherTypesErrors }

/-- Checks that every `save` in a trace is immediately preceded by a history
snapshot equal to the record being overwritten — the pre-change state. -/
def saveSnapOk : List Effect → Bool
  | [] => true
  | .saveHistory a :: .save b _ :: rest => a == b && saveSnapOk rest
  | .save _ _ :: _ => false
  | _ :: rest => saveSnapOk rest

/-- Checks that every row affected by a bulk archive has exactly one earlier
history snapshot of its pre-change state in the trace. -/
def archSnapOkAux (snaps : List Record) : List Effect → Bool
  | [] => true
  | .saveHistory r :: rest => archSnapOkAux (snaps ++ [r]) rest
  | .bulkArchive rows _ _ :: rest =>
      rows.all (fun r => snaps.count r == 1) && archSnapOkAux snaps rest
  | _ :: rest => archSnapOkAux snaps rest

/-- The history-before-mutation discipline over a whole trace: every update
and every archived row is preceded by exactly one snapshot of its pre-change
state. -/
def snapshotDiscipline (tr : List Effect) : Bool :=
  saveSnapOk tr && archSnapOkAux [] tr

/-- Counts the `save` (update) effects of a trace. -/
def countSaves (tr : List Effect) : Nat :=
  tr.countP (fun e => match e with | .save _ _ => true | _ => false)

/-- Counts the history snapshots of a trace. -/
def countSnaps (tr : List Effect) : Nat :=
  tr.countP (fun e => match e with | .saveHistory _ => true | _ => false)

/-- Recognizes the bulk archive effect. -/
def isArchive : Effect → Bool
  | .bulkArchive _ _ _ => true
  | _ => false

/-- Recognizes any write effect at all (a dry run must produce none). -/
def isWrite : Effect → Bool
  | _ => true

/-- The insert-on-existing / update-on-missing rejection condition of the
per-candidate loops (the two `continue` branches guarded by the strategy). -/
def strategyRejects (existing : Option α) (strategy : Strategy) : Bool :=
  match existing with
  | some _ => strategy == .insert
  | none => strategy == .update

/-- Invariant carried through the per-candidate loop of `upload_simple_data`
relating the live store to the initial store: the rows the archival sweep
would select are unchanged, every live row is an initial row or carries a
candidate code, and invalid initial rows are still present. -/
def SweepInv (store0 : List Record) (idsF : List String) (st : St) : Prop :=
  st.store.filter (archiveFilter idsF) = store0.filter (archiveFilter idsF) ∧
  (∀ r ∈ st.store, r ∈ store0 ∨ idsF.contains r.code = true) ∧
  (∀ r ∈ store0, r.validityTo ≠ none → r ∈ st.store)

/-- The shapes of trace fragments a single per-candidate loop iteration can
append: an update (snapshot followed by save of the snapshotted row), a
create, or a create followed by a `UserDistrict` creation. -/
def loopUnit (u : List Effect) : Prop :=
  (∃ a b, u = [.saveHistory a, .save a b]) ∨
  (∃ i c fs d, u = [.create i c fs d]) ∨
  (∃ i c fs d j k, u = [.create i c fs d, .createUserDistrict j k])

/-- A trace that is a concatenation of per-candidate loop units. -/
def LoopTrace (tr : List Effect) : Prop :=
  ∃ us : List (List Effect), tr = us.flatten ∧ ∀ u ∈ us, loopUnit u

/-- A trace fragment of a whole upload call: a loop unit or the single bulk
archive of the INSERT_UPDATE_DELETE sweep. -/
def traceUnit (u : List Effect) : Prop :=
  loopUnit u ∨ (∃ rows v n, u = [.bulkArchive rows v n])

/-- Fixture: an existing valid row with code `A`. -/
def exRecA : Record := { rid := 1, code := "A", fields := [("name", "oldA")] }

/-- Fixture: an existing valid row with code `C`. -/
def exRecC : Record := { rid := 2, code := "C", fields := [("name", "oldC")] }

/-- Fixture: a candidate entry with code `A`. -/
def exEntA : Entry := { code := "A", fields := [("code", "A"), ("name", "newA")] }

/-- Fixture: a candidate entry with code `B`. -/
def exEntB : Entry := { code := "B", fields := [("code", "B"), ("name", "newB")] }

/-- Fixture: a region candidate with code `R1`. -/
def exEntR : Entry :=
  { code := "R1", fields := [("code", "R1"), ("type", "R"), ("name", "Region1")] }

/-- Fixture: a district candidate with code `D1` whose parent is region
`R1`. -/
def exEntD : Entry :=
  { code := "D1", fields := [("code", "D1"), ("type", "D"), ("name", "District1")],
    parent := some "R1" }

/-- Fixture: a parsed location element whose code is empty. -/
def exEmptyCodeLoc : Entry :=
  { code := "", fields := [("code", ""), ("type", "R"), ("name", "N")] }

/-- Fixture: a valid district location row with code `DX`. -/
def exLocDX : Record := { rid := 5, code := "DX", fields := [("type", "D")] }

/-- Fixture: a valid items pricelist named `P`. -/
def exPlP : PLRecord := { rid := 11, name := "P" }

/-- Fixture: a health facility candidate whose district code `DX` resolves
to no location. -/
def exHfBad : Entry :=
  { code := "HF1",
    fields := [("code", "HF1"), ("name", "Fac"), ("legal_form_id", "C"),
               ("level", "D"), ("care_type", "B"), ("district_code", "DX")] }

/-- Fixture: a health facility candidate with a resolvable district `DX`. -/
def exHfGood : Entry :=
  { code := "HF2",
    fields := [("code", "HF2"), ("name", "Fac2"), ("legal_form_id", "C"),
               ("level", "D"), ("care_type", "B"), ("district_code", "DX")] }

/-- Fixture: a health facility candidate referencing items pricelist `P`. -/
def exHfPl : Entry :=
  { code := "HF1",
    fields := [("code", "HF1"), ("name", "Fac"), ("district_code", "DX"),
               ("items_pricelist_name", "P")] }

/-- Fixture: a stale `get_pricelist` memo left behind by an earlier upload,
recording that no items pricelist named `P` existed back then. -/
def exStaleQm : PLMemo := [(("P", "items"), none)]

/-- Fixture: a store holding one valid row with code `c0`. -/
def exStore1 : List Record := [{ rid := 1, code := "c0" }]

/-- Fixture: 1001 candidate codes starting with `c0` — one more than the
modelled backend IN-list limit of 1000. -/
def exCodes1001 : List String := "c0" :: (List.range 1000).map (fun i => "x" ++ toString i)

/-- Fixture: 2500 candidate codes starting with `c0` — two and a half times
the chunk size used by `upload_locations`. -/
def exCodes2500 : List String := "c0" :: (List.range 2499).map (fun i => "x" ++ toString i)

/-- Relates two health facility upload outcomes that agree on everything the
returned `UploadResult` and the parent-location memo can observe: both raise
the same exception, or both succeed with the same result and parent memo. -/
def HRel : Except String HSt → Except String HSt → Prop
  | .error e1, .error e2 => e1 = e2
  | .ok s1, .ok s2 => s1.res = s2.res ∧ s1.pm = s2.pm
  | _, _ => False

/-- C1: the strategy correctness table of `upload_simple_data` — with one
existing valid record `A` and candidates `[A, B]`: under INSERT, `B` is
created and an "already exists" error is recorded for `A` (`sent=2`,
`created=1`, `updated=0`, one error); under UPDATE, `A` is updated and a
"does not exist" error is recorded for `B` (`sent=2`, `updated=1`,
`created=0`, one error); under INSERT_UPDATE, `A` is updated and `B` is
created with no errors; under INSERT_UPDATE_DELETE with existing `{A, C}`
and candidates `[A, B]`, `A` is updated, `B` is created and `C` is archived
(`created=1`, `updated=1`, `deleted=1`). -/
theorem C1_strategy_table :
    ((uploadSimpleData 7 "Item" .insert false 99 [exRecA] [exEntA, exEntB] []).res =
       { errors := ["Item \x27A\x27 already exists"], sent := 2, created := 1,
         updated := 0, deleted := 0 } ∧
     (uploadSimpleData 7 "Item" .insert false 99 [exRecA] [exEntA, exEntB] []).trace =
       [.create 2 "B" exEntB.fields 7]) ∧
    ((uploadSimpleData 7 "Item" .update false 99 [exRecA] [exEntA, exEntB] []).res =
       { errors := ["Item \x27B\x27 does not exist"], sent := 2, created := 0,
         updated := 1, deleted := 0 } ∧
     (uploadSimpleData 7 "Item" .update false 99 [exRecA] [exEntA, exEntB] []).trace =
       [.saveHistory exRecA, .save exRecA (applyEntry exRecA exEntA)]) ∧
    ((uploadSimpleData 7 "Item" .insertUpdate false 99 [exRecA] [exEntA, exEntB] []).res =
       { errors := [], sent := 2, created := 1, updated := 1, deleted := 0 } ∧
     (uploadSimpleData 7 "Item" .insertUpdate false 99 [exRecA] [exEntA, exEntB] []).trace =
       [.saveHistory exRecA, .save exRecA (applyEntry exRecA exEntA),
        .create 2 "B" exEntB.fields 7]) ∧
    ((uploadSimpleData 7 "Item" .insertUpdateDelete false 99 [exRecA, exRecC]
        [exEntA, exEntB] []).res =
       { errors := [], sent := 2, created := 1, updated := 1, deleted := 1 } ∧
     (uploadSimpleData 7 "Item" .insertUpdateDelete false 99 [exRecA, exRecC]
        [exEntA, exEntB] []).trace =
       [.saveHistory exRecA, .save exRecA (applyEntry exRecA exEntA),
        .create 3 "B" exEntB.fields 7, .bulkArchive [exRecC] 7 99]) := by
  decide

/-- C2 (counterexample): on `upload_locations`, a dry run does not always
return the same result as a committing run on the same input — with an empty
store and candidates `[region R1, district D1 with parent R1]` under INSERT,
the committing run creates both (`created=2`, no errors) because the parent
lookup sees the region created earlier in the same batch, while the dry run
reports "Parent R1 does not exist" and `created=1`. -/
theorem C2_counterexample :
    (uploadLocations 7 .insert true [] [exEntR, exEntD] [] []).res ≠
    (uploadLocations 7 .insert false [] [exEntR, exEntD] [] []).res := by
  decide

/-- C3 (counterexample): the history-before-mutation discipline fails for
the INSERT_UPDATE_DELETE archival sweep — archiving valid record `C` (absent
from the candidates) emits a bulk update with no history snapshot of `C`. -/
theorem C3_counterexample :
    snapshotDiscipline
      (uploadSimpleData 7 "Item" .insertUpdateDelete false 99 [exRecC] [exEntA] []).trace
      = false := by
  decide

/-- C5: a health facility candidate whose district code resolves to no
valid location makes the whole `upload_health_facilities` call raise
`KeyError` instead of recording a per-record error and continuing — the
error message reads `facility['district_code']` after that key was popped —
so the remaining candidates (here a perfectly fine `HF2`) are never
processed and no `UploadResult` is returned. -/
theorem C5_district_keyerror :
    uploadHealthFacilities 7 .insert false [] [] [] [] [exHfBad, exHfGood] [] [] [] =
      .error "KeyError: district_code" := by
  rfl

/-- C9: a location element with an empty code is recorded in the error list
("Location has no code") but is NOT excluded from further processing — it is
appended to the parsed result handed to the reconciliation stage. -/
theorem C9_empty_code_included :
    loadLocationsXml [some exEmptyCodeLoc] =
      ({ r := [exEmptyCodeLoc], d := [], w := [], v := [] },
       ["Location has no code"]) := by
  decide

/-- C6 (counterexample): for `upload_locations`, `sent` is not always
`created + updated + (number of insert-on-existing / update-on-missing
rejections)` — a district whose parent region does not exist is counted in
`sent` but is neither created, updated, nor strategy-rejected. -/
theorem C6_counterexample :
    (uploadLocations 7 .insert false [] [exEntD] [] []).res.sent ≠
      (uploadLocations 7 .insert false [] [exEntD] [] []).res.created +
      (uploadLocations 7 .insert false [] [exEntD] [] []).res.updated +
      [exEntD].countP (fun e =>
        strategyRejects
          (mapGet (chunkedRows none [] ([exEntD].map Entry.code) 1000) e.code)
          .insert) := by
  decide

set_option maxRecDepth 100000 in
/-- C7 (counterexample): the existence lookup is NOT chunked in every upload
path — the single unchunked query of `upload_simple_data` over 1001
candidate codes against a backend with a 1000-item IN-list limit loses the
existing row `c0`, while the chunked resolution of `upload_locations` (chunk
size 1000) and the unchunked reference on an unlimited backend both find
it. -/
theorem C7_counterexample :
    mapGet (queryValidIn (some 1000) exStore1 exCodes1001) "c0" = none ∧
    mapGet (chunkedRows (some 1000) exStore1 exCodes1001 1000) "c0" =
      some { rid := 1, code := "c0" } ∧
    mapGet (queryValidIn none exStore1 exCodes1001) "c0" =
      some { rid := 1, code := "c0" } := by
  decide

/-- C8 (counterexample): the `get_pricelist` memo is not cleared between
upload invocations — running the same health facility upload against the
same stores, once with a stale memo entry recording that items pricelist `P`
did not exist and once with empty memos, writes different records (the
facility is created without its pricelist under the stale memo) even though
the returned `UploadResult` is the same. -/
theorem C8_counterexample :
    ((uploadHealthFacilities 7 .insert false [exLocDX] [] [exPlP] [] [exHfPl]
        [] [] exStaleQm).toOption.map HSt.store ≠
     (uploadHealthFacilities 7 .insert false [exLocDX] [] [exPlP] [] [exHfPl]
        [] [] []).toOption.map HSt.store) ∧
    ((uploadHealthFacilities 7 .insert false [exLocDX] [] [exPlP] [] [exHfPl]
        [] [] exStaleQm).toOption.map HSt.res =
     (uploadHealthFacilities 7 .insert false [exLocDX] [] [exPlP] [] [exHfPl]
        [] [] []).toOption.map HSt.res) := by
  decide

/-- C10: `return_upload_result_json` raises `RuntimeError` iff both kinds of
result are provided or neither is; given an `UploadResult`, the rendered
body's data fields equal the result's `sent`/`created`/`updated`/`deleted`,
its `errors` field equals the result's error list, and `skipped`, `invalid`
and `failed` are always 0. -/
theorem C10_json_rendering (success : Bool) (xmlResult : Option UploadResult)
    (otherTypesResult : Option ImportTotals) (otherTypesErrors : List String) :
    ((∃ msg, returnUploadResultJson success xmlResult otherTypesResult
        otherTypesErrors = .error msg) ↔
      ((xmlResult.isSome ∧ otherTypesResult.isSome) ∨
       (xmlResult.isNone ∧ otherTypesResult.isNone))) ∧
    (∀ r, xmlResult = some r → otherTypesResult = none →
      returnUploadResultJson success xmlResult otherTypesResult otherTypesErrors =
        .ok { success := success,
              data := { sent := r.sent, created := r.created, updated := r.updated,
                        deleted := r.deleted, skipped := 0, invalid := 0,
                        failed := 0 },
              errors := r.errors }) := by
  cases xmlResult <;> cases otherTypesResult <;>
    simp [returnUploadResultJson]

/-- Witness for C10 at a concrete result. -/
theorem C10_json_rendering_witness :
    returnUploadResultJson true
        (some { errors := ["e"], sent := 3, created := 1, updated := 2, deleted := 0 })
        none [] =
      .ok { success := true,
            data := { sent := 3, created := 1, updated := 2, deleted := 0,
                      skipped := 0, invalid := 0, failed := 0 },
            errors := ["e"] } :=
  (C10_json_rendering true
      (some { errors := ["e"], sent := 3, created := 1, updated := 2, deleted := 0 })
      none []).2 _ rfl rfl

/-- Folding a step function preserves an invariant that every step
preserves. -/
theorem foldl_pres {σ α : Type _} (f : σ → α → σ) (P : σ → Prop) :
    ∀ (l : List α) (s : σ),
      (∀ s a, a ∈ l → P s → P (f s a)) → P s → P (l.foldl f s)
  | [], _, _, h => h
  | a :: l, s, hstep, h =>
    foldl_pres f P l (f s a)
      (fun s1 a1 ha1 h1 => hstep s1 a1 (List.mem_cons_of_mem a ha1) h1)
      (hstep s a (List.mem_cons_self a l) h)

/-- Two folds over the same list stay related when every step preserves the
relation. -/
theorem foldl_rel {σ τ α : Type _} (f : σ → α → σ) (g : τ → α → τ)
    (R : σ → τ → Prop) :
    ∀ (l : List α) (s : σ) (t : τ),
      (∀ s t a, a ∈ l → R s t → R (f s a) (g t a)) → R s t →
      R (l.foldl f s) (l.foldl g t)
  | [], _, _, _, h => h
  | a :: l, s, t, hstep, h =>
    foldl_rel f g R l (f s a) (g t a)
      (fun s1 t1 a1 ha1 h1 => hstep s1 t1 a1 (List.mem_cons_of_mem a ha1) h1)
      (hstep s t a (List.mem_cons_self a l) h)

/-- Mapping a function that fixes every element kept by a filter and never
makes a dropped element kept leaves the filter unchanged. -/
theorem filter_map_eq {α : Type _} (p : α → Bool) (f : α → α) :
    ∀ l : List α,
      (∀ r ∈ l, (p r = true → f r = r) ∧ (p r = false → p (f r) = false)) →
      (l.map f).filter p = l.filter p
  | [], _ => rfl
  | a :: l, h => by
    have ha := h a (List.mem_cons_self a l)
    have hl := filter_map_eq p f l (fun r hr => h r (List.mem_cons_of_mem a hr))
    by_cases hp : p a = true
    · simp [List.filter_cons, hp, ha.1 hp, hl]
    · have hp' : p a = false := by simpa using hp
      simp [List.filter_cons, hp', ha.2 hp', hl]

/-- In a store whose row ids are distinct, two member rows with the same row
id are the same row. -/
theorem rid_injective {store0 : List Record}
    (hnd : (store0.map Record.rid).Nodup) {r ex : Record}
    (hr : r ∈ store0) (hex : ex ∈ store0) (h : r.rid = ex.rid) : r = ex :=
  List.inj_on_of_nodup_map hnd hr hex h

/-- The last element of a list is a member. -/
theorem mem_of_getLast?_eq_some {α : Type _} {l : List α} {a : α}
    (h : l.getLast? = some a) : a ∈ l := by
  obtain ⟨hne, heq⟩ := List.mem_getLast?_eq_getLast (Option.mem_def.mpr h)
  exact heq ▸ List.getLast_mem hne

/-- A row returned by the existence lookup of `upload_simple_data` is a
valid member of the queried store carrying the queried code. -/
theorem dbEntriesGet_spec (store : List Record) (codes : List String)
    (c : String) (ex : Record) (h : dbEntriesGet store codes c = some ex) :
    ex ∈ store ∧ ex.code = c ∧ ex.validityTo = none := by
  have h2 : ((store.filter (fun r => isValid r && codes.contains r.code)).filter
      (fun r => r.code == c)).getLast? = some ex := h
  have hmem := mem_of_getLast?_eq_some h2
  rw [List.mem_filter] at hmem
  obtain ⟨hmem1, hcode⟩ := hmem
  rw [List.mem_filter] at hmem1
  obtain ⟨hmem0, hvalid⟩ := hmem1
  rw [Bool.and_eq_true] at hvalid
  refine ⟨hmem0, by simpa using hcode, ?_⟩
  have := hvalid.1
  unfold isValid at this
  simpa [Option.isNone_iff_eq_none] using this

/-- Each candidate adds exactly one to `sent`. -/
theorem processEntry_sent (d : String → Option Record) (sg : String)
    (s : Strategy) (dr : Bool) (u : Int) (st : St) (e : Entry) :
    (processEntry d sg s dr u st e).res.sent = st.res.sent + 1 := by
  unfold processEntry
  cases hd : d e.code <;> simp only [hd] <;> (try split) <;> (try split) <;> simp

/-- Each candidate appends its code to the `ids` list. -/
theorem processEntry_ids (d : String → Option Record) (sg : String)
    (s : Strategy) (dr : Bool) (u : Int) (st : St) (e : Entry) :
    (processEntry d sg s dr u st e).ids = st.ids ++ [e.code] := by
  unfold processEntry
  cases hd : d e.code <;> simp only [hd] <;> (try split) <;> (try split) <;> simp

/-- A dry-run loop iteration leaves store, trace and row id counter
untouched. -/
theorem processEntry_dry_frame (d : String → Option Record) (sg : String)
    (s : Strategy) (u : Int) (st : St) (e : Entry) :
    (processEntry d sg s true u st e).store = st.store ∧
    (processEntry d sg s true u st e).trace = st.trace ∧
    (processEntry d sg s true u st e).next = st.next := by
  unfold processEntry
  cases hd : d e.code <;> simp only [hd] <;> (try split) <;> (try split) <;> simp_all

/-- The loop never touches the `deleted` counter. -/
theorem processEntry_deleted (d : String → Option Record) (sg : String)
    (s : Strategy) (dr : Bool) (u : Int) (st : St) (e : Entry) :
    (processEntry d sg s dr u st e).res.deleted = st.res.deleted := by
  unfold processEntry
  cases hd : d e.code <;> simp only [hd] <;> (try split) <;> (try split) <;> simp

/-- A dry iteration and a committing iteration starting from the same
accumulated result produce the same result. -/
theorem processEntry_res_rel (d : String → Option Record) (sg : String)
    (s : Strategy) (u : Int) (st1 st2 : St) (e : Entry)
    (hres : st1.res = st2.res) :
    (processEntry d sg s true u st1 e).res =
    (processEntry d sg s false u st2 e).res := by
  unfold processEntry
  cases hd : d e.code <;> simp only [hd] <;> (try split) <;> (try split) <;>
    simp [hres]

/-- Each loop iteration keeps the running partition equation between `sent`
and `created`, `updated` and the error count. -/
theorem processEntry_partition (d : String → Option Record) (sg : String)
    (s : Strategy) (dr : Bool) (u : Int) (st : St) (e : Entry) (k : Nat)
    (h : st.res.sent + k = st.res.created + st.res.updated + st.res.errors.length) :
    (processEntry d sg s dr u st e).res.sent + k =
      (processEntry d sg s dr u st e).res.created +
      (processEntry d sg s dr u st e).res.updated +
      (processEntry d sg s dr u st e).res.errors.length := by
  unfold processEntry
  cases hd : d e.code <;> simp only [hd] <;> (try split) <;> (try split) <;>
    simp_all <;> omega

/-- A loop iteration appends an error exactly when the candidate is rejected
by the strategy check. -/
theorem processEntry_errors_len (d : String → Option Record) (sg : String)
    (s : Strategy) (dr : Bool) (u : Int) (st : St) (e : Entry) :
    (processEntry d sg s dr u st e).res.errors.length =
      st.res.errors.length + (if strategyRejects (d e.code) s then 1 else 0) := by
  unfold processEntry strategyRejects
  cases hd : d e.code <;> simp only [hd] <;> (try split) <;> (try split) <;>
    simp_all [beq_iff_eq]

/-- Each loop iteration extends the trace by nothing or by a single loop
unit. -/
theorem processEntry_trace_append (d : String → Option Record) (sg : String)
    (s : Strategy) (dr : Bool) (u : Int) (st : St) (e : Entry) :
    ∃ tail, (processEntry d sg s dr u st e).trace = st.trace ++ tail ∧
      (tail = [] ∨ loopUnit tail) := by
  unfold processEntry
  cases hd : d e.code with
  | none =>
    simp only [hd]
    split
    · exact ⟨[], by simp, Or.inl rfl⟩
    · split
      · exact ⟨[], by simp, Or.inl rfl⟩
      · exact ⟨[.create st.next e.code e.fields u], by simp,
          Or.inr (Or.inr (Or.inl ⟨st.next, e.code, e.fields, u, rfl⟩))⟩
  | some ex =>
    simp only [hd]
    split
    · exact ⟨[], by simp, Or.inl rfl⟩
    · split
      · exact ⟨[], by simp, Or.inl rfl⟩
      · exact ⟨[.saveHistory ex, .save ex (applyEntry ex e)], by simp,
          Or.inr (Or.inl ⟨ex, applyEntry ex e, rfl⟩)⟩

/-- A committing loop iteration preserves the sweep invariant: the rows the
archival sweep would select are exactly those it would have selected in the
initial store. -/
theorem processEntry_sweep_inv (d : String → Option Record) (sg : String)
    (s : Strategy) (u : Int) (store0 : List Record) (idsF : List String)
    (hnd : (store0.map Record.rid).Nodup)
    (hdb : ∀ c ex, d c = some ex → ex ∈ store0 ∧ ex.code = c ∧ ex.validityTo = none)
    (st : St) (e : Entry) (he : idsF.contains e.code = true)
    (h : SweepInv store0 idsF st) :
    SweepInv store0 idsF (processEntry d sg s false u st e) := by
  obtain ⟨h1, h2, h3⟩ := h
  have hem : e.code ∈ idsF := by simpa using he
  unfold processEntry
  cases hd : d e.code with
  | none =>
    simp only [hd]
    split
    · exact ⟨h1, h2, h3⟩
    · split
      · exact ⟨h1, h2, h3⟩
      · refine ⟨?_, ?_, ?_⟩
        · show ((st.store ++ [mkRecord st.next u e]).filter (archiveFilter idsF)) = _
          have hnew : archiveFilter idsF (mkRecord st.next u e) = false := by
            unfold archiveFilter mkRecord
            simp [hem]
          rw [List.filter_append]
          simp [List.filter_cons, hnew, h1]
        · intro r hr
          rcases List.mem_append.mp hr with hr | hr
          · exact h2 r hr
          · have : r = mkRecord st.next u e := by simpa using hr
            subst this
            right
            exact he
        · intro r hr hv
          exact List.mem_append_left _ (h3 r hr hv)
  | some ex =>
    simp only [hd]
    obtain ⟨hexmem, hexcode, hexvalid⟩ := hdb e.code ex hd
    have key : ∀ r ∈ st.store, r.rid = ex.rid → idsF.contains r.code = true := by
      intro r hr hrid
      rcases h2 r hr with hr0 | hc
      · have : r = ex := rid_injective hnd hr0 hexmem hrid
        rw [this, hexcode]
        exact he
      · exact hc
    have happ : archiveFilter idsF (applyEntry ex e) = false := by
      unfold archiveFilter applyEntry
      simp [hem]
    split
    · exact ⟨h1, h2, h3⟩
    · split
      · exact ⟨h1, h2, h3⟩
      · refine ⟨?_, ?_, ?_⟩
        · show ((st.store.map fun r => if r.rid = ex.rid then applyEntry ex e else r).filter
            (archiveFilter idsF)) = _
          rw [filter_map_eq]
          · exact h1
          · intro r hr
            constructor
            · intro hp
              by_cases hrid : r.rid = ex.rid
              · exfalso
                have hc := key r hr hrid
                unfold archiveFilter at hp
                rw [Bool.and_eq_true] at hp
                rw [hc] at hp
                simp at hp
              · exact if_neg hrid
            · intro hp
              show archiveFilter idsF (if r.rid = ex.rid then applyEntry ex e else r) = false
              by_cases hrid : r.rid = ex.rid
              · rw [if_pos hrid]
                exact happ
              · rw [if_neg hrid]
                exact hp
        · intro r1 hr1
          rw [List.mem_map] at hr1
          obtain ⟨r, hr, hfr⟩ := hr1
          by_cases hrid : r.rid = ex.rid
          · rw [if_pos hrid] at hfr
            right
            rw [← hfr]
            show idsF.contains (applyEntry ex e).code = true
            unfold applyEntry
            simpa using he
          · rw [if_neg hrid] at hfr
            rw [← hfr]
            exact h2 r hr
        · intro r hr0 hv
          have hmem := h3 r hr0 hv
          have hfix : (if r.rid = ex.rid then applyEntry ex e else r) = r := by
            by_cases hrid : r.rid = ex.rid
            · exfalso
              have : r = ex := rid_injective hnd hr0 hexmem hrid
              rw [this, hexvalid] at hv
              exact hv rfl
            · exact if_neg hrid
          show r ∈ (st.store.map fun r => if r.rid = ex.rid then applyEntry ex e else r)
          exact List.mem_map.mpr ⟨r, hmem, hfix⟩


theorem loopTrace_extend {tr u : List Effect} (h : LoopTrace tr) (hu : loopUnit u) :
    LoopTrace (tr ++ u) := by
  obtain ⟨us, rfl, hall⟩ := h
  refine ⟨us ++ [u], by simp, ?_⟩
  intro v hv
  rcases List.mem_append.mp hv with hv | hv
  · exact hall v hv
  · have hvu : v = u := by simpa using hv
    exact hvu ▸ hu

theorem loopTrace_extend2 {tr u1 u2 : List Effect} (h : LoopTrace tr)
    (hu : loopUnit (u1 ++ u2)) : LoopTrace (tr ++ u1 ++ u2) := by
  rw [List.append_assoc]
  exact loopTrace_extend h hu

theorem processEntry_loopTrace (d : String → Option Record) (sg : String)
    (s : Strategy) (dr : Bool) (u : Int) (st : St) (e : Entry)
    (h : LoopTrace st.trace) : LoopTrace (processEntry d sg s dr u st e).trace := by
  obtain ⟨tail, htr, htail⟩ := processEntry_trace_append d sg s dr u st e
  rw [htr]
  rcases htail with rfl | hu
  · simpa using h
  · exact loopTrace_extend h hu

theorem processLocation_dry_frame (d : String → Option Record) (s : Strategy)
    (u : Int) (st : LSt) (loc : Entry) :
    (processLocation d s true u st loc).store = st.store ∧
    (processLocation d s true u st loc).trace = st.trace ∧
    (processLocation d s true u st loc).next = st.next := by
  unfold processLocation
  cases hd : d loc.code <;>
  cases hp : loc.parent <;>
  by_cases hi : s = Strategy.insert <;>
  by_cases hu : s = Strategy.update <;>
  simp only [hd, hp, hi, hu] <;>
  (try (rename_i pc; cases hm : (getParentLocation st.store st.memo pc).2 <;> simp only [hm])) <;>
  simp_all

theorem processLocation_partition (d : String → Option Record) (s : Strategy)
    (dr : Bool) (u : Int) (st : LSt) (loc : Entry) (k : Nat)
    (h : st.res.sent + k = st.res.created + st.res.updated + st.res.errors.length) :
    (processLocation d s dr u st loc).res.sent + k =
      (processLocation d s dr u st loc).res.created +
      (processLocation d s dr u st loc).res.updated +
      (processLocation d s dr u st loc).res.errors.length := by
  unfold processLocation
  cases hd : d loc.code <;>
  cases hp : loc.parent <;>
  by_cases hi : s = Strategy.insert <;>
  by_cases hu : s = Strategy.update <;>
  cases hdr : dr <;>
  simp only [hd, hp, hi, hu, hdr] <;>
  (try (rename_i pc; cases hm : (getParentLocation st.store st.memo pc).2 <;> simp only [hm])) <;>
  simp_all <;> omega

theorem processLocation_errors_ge (d : String → Option Record) (s : Strategy)
    (dr : Bool) (u : Int) (st : LSt) (loc : Entry) :
    st.res.errors.length + (if strategyRejects (d loc.code) s then 1 else 0) ≤
      (processLocation d s dr u st loc).res.errors.length := by
  unfold processLocation strategyRejects
  cases hd : d loc.code <;>
  cases hp : loc.parent <;>
  by_cases hi : s = Strategy.insert <;>
  by_cases hu : s = Strategy.update <;>
  cases hdr : dr <;>
  simp only [hd, hp, hi, hu, hdr] <;>
  (try (rename_i pc; cases hm : (getParentLocation st.store st.memo pc).2 <;> simp only [hm])) <;>
  simp_all [beq_iff_eq]

theorem loopTrace_create_cud {tr : List Effect} (h : LoopTrace tr) (i : Nat)
    (c : String) (fs : List (String × String)) (v : Int) (b : Bool) (j : Int) (k : Nat) :
    LoopTrace (tr ++ [.create i c fs v] ++ (if b then [.createUserDistrict j k] else [])) := by
  by_cases hb : b = true
  · rw [if_pos hb]
    exact loopTrace_extend2 h (Or.inr (Or.inr ⟨i, c, fs, v, j, k, rfl⟩))
  · rw [if_neg hb, List.append_nil]
    exact loopTrace_extend h (Or.inr (Or.inl ⟨i, c, fs, v, rfl⟩))

theorem processLocation_loopTrace (d : String → Option Record) (s : Strategy)
    (dr : Bool) (u : Int) (st : LSt) (loc : Entry) (h : LoopTrace st.trace) :
    LoopTrace (processLocation d s dr u st loc).trace := by
  unfold processLocation
  cases hd : d loc.code <;>
  cases hp : loc.parent <;>
  by_cases hi : s = Strategy.insert <;>
  by_cases hu : s = Strategy.update <;>
  cases hdr : dr <;>
  simp only [hd, hp, hi, hu, hdr, reduceIte] <;>
  (try (rename_i pc; cases hm : (getParentLocation st.store st.memo pc).2 <;> simp only [hm])) <;>
  (try split) <;>
  (try simp only [List.append_nil]) <;>
  first
    | exact h
    | exact loopTrace_extend h (Or.inl ⟨_, _, rfl⟩)
    | exact loopTrace_extend h (Or.inr (Or.inl ⟨_, _, _, _, rfl⟩))
    | exact loopTrace_create_cud h _ _ _ _ _ _ _
    | simp_all


theorem saveSnapOk_flatten : ∀ us : List (List Effect),
    (∀ u ∈ us, traceUnit u) → saveSnapOk us.flatten = true := by
  intro us
  induction us with
  | nil => intro _; rfl
  | cons u rest ih =>
    intro hall
    have hu := hall u (List.mem_cons_self u rest)
    have hrest := ih (fun v hv => hall v (List.mem_cons_of_mem u hv))
    rcases hu with (⟨a, b, rfl⟩ | ⟨i, c, fs, dd, rfl⟩ | ⟨i, c, fs, dd, j, k, rfl⟩) |
      ⟨rows, v, n, rfl⟩ <;>
      simp [saveSnapOk, hrest]

theorem countSnaps_append (a b : List Effect) :
    countSnaps (a ++ b) = countSnaps a + countSnaps b := by
  simp [countSnaps, List.countP_append]

theorem countSaves_append (a b : List Effect) :
    countSaves (a ++ b) = countSaves a + countSaves b := by
  simp [countSaves, List.countP_append]

theorem counts_flatten : ∀ us : List (List Effect),
    (∀ u ∈ us, traceUnit u) → countSnaps us.flatten = countSaves us.flatten := by
  intro us
  induction us with
  | nil => intro _; rfl
  | cons u rest ih =>
    intro hall
    have hu := hall u (List.mem_cons_self u rest)
    have hrest := ih (fun v hv => hall v (List.mem_cons_of_mem u hv))
    rcases hu with (⟨a, b, rfl⟩ | ⟨i, c, fs, dd, rfl⟩ | ⟨i, c, fs, dd, j, k, rfl⟩) |
      ⟨rows, v, n, rfl⟩ <;>
      rw [List.flatten_cons, countSnaps_append, countSaves_append, hrest] <;>
      simp [countSnaps, countSaves, List.countP_cons]

theorem noArchive_flatten : ∀ us : List (List Effect),
    (∀ u ∈ us, loopUnit u) → us.flatten.filter isArchive = [] := by
  intro us
  induction us with
  | nil => intro _; rfl
  | cons u rest ih =>
    intro hall
    have hu := hall u (List.mem_cons_self u rest)
    have hrest := ih (fun v hv => hall v (List.mem_cons_of_mem u hv))
    rcases hu with ⟨a, b, rfl⟩ | ⟨i, c, fs, dd, rfl⟩ | ⟨i, c, fs, dd, j, k, rfl⟩ <;>
      simp [isArchive, hrest]



theorem foldl_processEntry_rel (d : String → Option Record) (sg : String)
    (s : Strategy) (u : Int) (es : List Entry) (st1 st2 : St)
    (hres : st1.res = st2.res) (hids : st1.ids = st2.ids) :
    (es.foldl (processEntry d sg s true u) st1).res =
      (es.foldl (processEntry d sg s false u) st2).res ∧
    (es.foldl (processEntry d sg s true u) st1).ids =
      (es.foldl (processEntry d sg s false u) st2).ids := by
  refine foldl_rel (processEntry d sg s true u) (processEntry d sg s false u)
    (fun a b => a.res = b.res ∧ a.ids = b.ids) es st1 st2 ?_ ⟨hres, hids⟩
  rintro a b e _ ⟨h1, h2⟩
  refine ⟨processEntry_res_rel d sg s u a b e h1, ?_⟩
  rw [processEntry_ids, processEntry_ids, h2]

theorem foldl_processEntry_dry_frame (d : String → Option Record) (sg : String)
    (s : Strategy) (u : Int) (es : List Entry) (st : St) :
    (es.foldl (processEntry d sg s true u) st).store = st.store ∧
    (es.foldl (processEntry d sg s true u) st).trace = st.trace ∧
    (es.foldl (processEntry d sg s true u) st).next = st.next := by
  refine foldl_pres (processEntry d sg s true u)
    (fun x => x.store = st.store ∧ x.trace = st.trace ∧ x.next = st.next) es st ?_
    ⟨rfl, rfl, rfl⟩
  rintro x e _ ⟨h1, h2, h3⟩
  obtain ⟨g1, g2, g3⟩ := processEntry_dry_frame d sg s u x e
  exact ⟨g1.trans h1, g2.trans h2, g3.trans h3⟩

theorem foldl_processEntry_ids (d : String → Option Record) (sg : String)
    (s : Strategy) (dr : Bool) (u : Int) :
    ∀ (es : List Entry) (st : St),
      (es.foldl (processEntry d sg s dr u) st).ids = st.ids ++ es.map Entry.code
  | [], st => by simp
  | e :: es, st => by
    rw [List.foldl_cons, foldl_processEntry_ids d sg s dr u es, processEntry_ids]
    simp

theorem foldl_processEntry_sweep (d : String → Option Record) (sg : String)
    (s : Strategy) (u : Int) (store0 : List Record) (idsF : List String)
    (hnd : (store0.map Record.rid).Nodup)
    (hdb : ∀ c ex, d c = some ex → ex ∈ store0 ∧ ex.code = c ∧ ex.validityTo = none)
    (es : List Entry) (hes : ∀ e ∈ es, idsF.contains e.code = true) (st : St)
    (h : SweepInv store0 idsF st) :
    SweepInv store0 idsF (es.foldl (processEntry d sg s false u) st) := by
  refine foldl_pres (processEntry d sg s false u) (SweepInv store0 idsF) es st ?_ h
  intro st1 e he h1
  exact processEntry_sweep_inv d sg s u store0 idsF hnd hdb st1 e (hes e he) h1

theorem foldl_processEntry_loopTrace (d : String → Option Record) (sg : String)
    (s : Strategy) (dr : Bool) (u : Int) (es : List Entry) (st : St)
    (h : LoopTrace st.trace) :
    LoopTrace (es.foldl (processEntry d sg s dr u) st).trace := by
  refine foldl_pres (processEntry d sg s dr u) (fun x => LoopTrace x.trace) es st ?_ h
  intro st1 e _ h1
  exact processEntry_loopTrace d sg s dr u st1 e h1

theorem foldl_processEntry_partition (d : String → Option Record) (sg : String)
    (s : Strategy) (dr : Bool) (u : Int) (k : Nat) (es : List Entry) (st : St)
    (h : st.res.sent + k = st.res.created + st.res.updated + st.res.errors.length) :
    (es.foldl (processEntry d sg s dr u) st).res.sent + k =
      (es.foldl (processEntry d sg s dr u) st).res.created +
      (es.foldl (processEntry d sg s dr u) st).res.updated +
      (es.foldl (processEntry d sg s dr u) st).res.errors.length := by
  refine foldl_pres (processEntry d sg s dr u)
    (fun x => x.res.sent + k = x.res.created + x.res.updated + x.res.errors.length)
    es st ?_ h
  intro st1 e _ h1
  exact processEntry_partition d sg s dr u st1 e k h1

theorem foldl_processEntry_errors (d : String → Option Record) (sg : String)
    (s : Strategy) (dr : Bool) (u : Int) :
    ∀ (es : List Entry) (st : St),
      (es.foldl (processEntry d sg s dr u) st).res.errors.length =
        st.res.errors.length + es.countP (fun e => strategyRejects (d e.code) s)
  | [], st => by simp
  | e :: es, st => by
    rw [List.foldl_cons, foldl_processEntry_errors d sg s dr u es,
      processEntry_errors_len, List.countP_cons]
    omega

theorem foldl_processEntry_deleted (d : String → Option Record) (sg : String)
    (s : Strategy) (dr : Bool) (u : Int) (es : List Entry) (st : St) :
    (es.foldl (processEntry d sg s dr u) st).res.deleted = st.res.deleted := by
  refine foldl_pres (processEntry d sg s dr u)
    (fun x => x.res.deleted = st.res.deleted) es st ?_ rfl
  intro st1 e _ h1
  rw [processEntry_deleted]
  exact h1

theorem foldl_processLocation_dry_frame (d : String → Option Record)
    (s : Strategy) (u : Int) (es : List Entry) (st : LSt) :
    (es.foldl (processLocation d s true u) st).store = st.store ∧
    (es.foldl (processLocation d s true u) st).trace = st.trace ∧
    (es.foldl (processLocation d s true u) st).next = st.next := by
  refine foldl_pres (processLocation d s true u)
    (fun x => x.store = st.store ∧ x.trace = st.trace ∧ x.next = st.next) es st ?_
    ⟨rfl, rfl, rfl⟩
  rintro x e _ ⟨h1, h2, h3⟩
  obtain ⟨g1, g2, g3⟩ := processLocation_dry_frame d s u x e
  exact ⟨g1.trans h1, g2.trans h2, g3.trans h3⟩

theorem foldl_processLocation_partition (d : String → Option Record)
    (s : Strategy) (dr : Bool) (u : Int) (k : Nat) (es : List Entry) (st : LSt)
    (h : st.res.sent + k = st.res.created + st.res.updated + st.res.errors.length) :
    (es.foldl (processLocation d s dr u) st).res.sent + k =
      (es.foldl (processLocation d s dr u) st).res.created +
      (es.foldl (processLocation d s dr u) st).res.updated +
      (es.foldl (processLocation d s dr u) st).res.errors.length := by
  refine foldl_pres (processLocation d s dr u)
    (fun x => x.res.sent + k = x.res.created + x.res.updated + x.res.errors.length)
    es st ?_ h
  intro st1 e _ h1
  exact processLocation_partition d s dr u st1 e k h1

theorem foldl_processLocation_errors_ge (d : String → Option Record)
    (s : Strategy) (dr : Bool) (u : Int) :
    ∀ (es : List Entry) (st : LSt),
      st.res.errors.length + es.countP (fun e => strategyRejects (d e.code) s) ≤
        (es.foldl (processLocation d s dr u) st).res.errors.length
  | [], st => by simp
  | e :: es, st => by
    rw [List.foldl_cons, List.countP_cons]
    have h1 := processLocation_errors_ge d s dr u st e
    have h2 := foldl_processLocation_errors_ge d s dr u es (processLocation d s dr u st e)
    omega

theorem foldl_processLocation_loopTrace (d : String → Option Record)
    (s : Strategy) (dr : Bool) (u : Int) (es : List Entry) (st : LSt)
    (h : LoopTrace st.trace) :
    LoopTrace (es.foldl (processLocation d s dr u) st).trace := by
  refine foldl_pres (processLocation d s dr u) (fun x => LoopTrace x.trace) es st ?_ h
  intro st1 e _ h1
  exact processLocation_loopTrace d s dr u st1 e h1


theorem loopTrace_nil : LoopTrace ([] : List Effect) :=
  ⟨[], rfl, by intro u hu; simp at hu⟩

theorem uploadSimpleData_trace_form (uid : Int) (sg : String) (strategy : Strategy)
    (dryRun : Bool) (now : Nat) (store0 : List Record) (entries : List Entry)
    (pe : List String) :
    ∃ tr, LoopTrace tr ∧
      ((uploadSimpleData uid sg strategy dryRun now store0 entries pe).trace = tr ∨
       ∃ rows, (uploadSimpleData uid sg strategy dryRun now store0 entries pe).trace =
         tr ++ [.bulkArchive rows uid now]) := by
  have hloop := foldl_processEntry_loopTrace
    (fun c => dbEntriesGet store0 (entries.map Entry.code) c)
    sg strategy dryRun uid entries
    { store := store0, next := freshRid store0, trace := [], res := { errors := pe },
      ids := [] } loopTrace_nil
  refine ⟨_, hloop, ?_⟩
  unfold uploadSimpleData
  split
  · split
    · left; rfl
    · right; exact ⟨_, rfl⟩
  · left; rfl

theorem uploadLocations_loopTrace (uid : Int) (strategy : Strategy) (dryRun : Bool)
    (store0 : List Record) (entries : List Entry) (pe : List String) (m : Memo) :
    LoopTrace (uploadLocations uid strategy dryRun store0 entries pe m).trace := by
  exact foldl_processLocation_loopTrace
    (fun c => mapGet (chunkedRows none store0 (entries.map Entry.code) 1000) c)
    strategy dryRun uid entries
    { store := store0, next := freshRid store0, trace := [], res := { errors := pe },
      memo := [] } loopTrace_nil

/-- C3 (amended): every update performed by any upload run (dry or not) is
immediately preceded by exactly one history snapshot equal to the record's
pre-change state, and every history snapshot in the trace belongs to such an
update; the rows archived by the INSERT_UPDATE_DELETE sweep, however, are
bulk-updated without any history snapshot. -/
theorem C3_amended (uid : Int) (sg : String) (strategy : Strategy) (dryRun : Bool)
    (now : Nat) (store0 : List Record) (entries : List Entry) (pe : List String)
    (uidL : Int) (strategyL : Strategy) (dryRunL : Bool) (storeL : List Record)
    (entriesL : List Entry) (peL : List String) (m : Memo) :
    (saveSnapOk (uploadSimpleData uid sg strategy dryRun now store0 entries pe).trace
       = true ∧
     countSnaps (uploadSimpleData uid sg strategy dryRun now store0 entries pe).trace =
       countSaves (uploadSimpleData uid sg strategy dryRun now store0 entries pe).trace) ∧
    (saveSnapOk (uploadLocations uidL strategyL dryRunL storeL entriesL peL m).trace
       = true ∧
     countSnaps (uploadLocations uidL strategyL dryRunL storeL entriesL peL m).trace =
       countSaves (uploadLocations uidL strategyL dryRunL storeL entriesL peL m).trace) := by
  constructor
  · obtain ⟨tr, ⟨us, htr, hall⟩, hcase⟩ :=
      uploadSimpleData_trace_form uid sg strategy dryRun now store0 entries pe
    rcases hcase with h | ⟨rows, h⟩
    · rw [h, htr]
      exact ⟨saveSnapOk_flatten us (fun u hu => Or.inl (hall u hu)),
        counts_flatten us (fun u hu => Or.inl (hall u hu))⟩
    · rw [h, htr]
      have hflat : us.flatten ++ [Effect.bulkArchive rows uid now] =
          (us ++ [[Effect.bulkArchive rows uid now]]).flatten := by
        simp
      rw [hflat]
      have hall2 : ∀ u ∈ us ++ [[Effect.bulkArchive rows uid now]], traceUnit u := by
        intro u hu
        rcases List.mem_append.mp hu with hu | hu
        · exact Or.inl (hall u hu)
        · have : u = [Effect.bulkArchive rows uid now] := by simpa using hu
          exact Or.inr ⟨rows, uid, now, this⟩
      exact ⟨saveSnapOk_flatten _ hall2, counts_flatten _ hall2⟩
  · obtain ⟨us, htr, hall⟩ :=
      uploadLocations_loopTrace uidL strategyL dryRunL storeL entriesL peL m
    rw [htr]
    exact ⟨saveSnapOk_flatten us (fun u hu => Or.inl (hall u hu)),
      counts_flatten us (fun u hu => Or.inl (hall u hu))⟩



/-- C2 (amended): for `upload_simple_data`, a dry run issues no store write
at all, leaves the store untouched, and returns exactly the same
`UploadResult` (counts and error list) as the committing run on the same
input, provided the store's row ids are distinct; for `upload_locations` a
dry run also issues no store write and leaves the store untouched, but its
result can differ from the committing run's (see the counterexample): a
candidate referencing a parent created earlier in the same batch resolves
on the committing run and fails on the dry run. -/
theorem C2_amended (uid : Int) (sg : String) (strategy : Strategy) (now : Nat)
    (store0 : List Record) (entries : List Entry) (pe : List String)
    (uidL : Int) (strategyL : Strategy) (storeL : List Record)
    (entriesL : List Entry) (peL : List String) (m : Memo)
    (hnd : (store0.map Record.rid).Nodup) :
    (uploadSimpleData uid sg strategy true now store0 entries pe).res =
      (uploadSimpleData uid sg strategy false now store0 entries pe).res ∧
    (uploadSimpleData uid sg strategy true now store0 entries pe).store = store0 ∧
    (uploadSimpleData uid sg strategy true now store0 entries pe).trace = [] ∧
    (uploadLocations uidL strategyL true storeL entriesL peL m).store = storeL ∧
    (uploadLocations uidL strategyL true storeL entriesL peL m).trace = [] := by
  have hdb : ∀ c ex, (fun c => dbEntriesGet store0 (entries.map Entry.code) c) c = some ex →
      ex ∈ store0 ∧ ex.code = c ∧ ex.validityTo = none := by
    intro c ex h
    exact dbEntriesGet_spec store0 (entries.map Entry.code) c ex h
  have hes : ∀ e ∈ entries, (entries.map Entry.code).contains e.code = true := by
    intro e he
    simpa using List.mem_map_of_mem Entry.code he
  have hrel := foldl_processEntry_rel
    (fun c => dbEntriesGet store0 (entries.map Entry.code) c) sg strategy uid entries
    { store := store0, next := freshRid store0, trace := [], res := { errors := pe },
      ids := [] }
    { store := store0, next := freshRid store0, trace := [], res := { errors := pe },
      ids := [] } rfl rfl
  have hfr := foldl_processEntry_dry_frame
    (fun c => dbEntriesGet store0 (entries.map Entry.code) c) sg strategy uid entries
    { store := store0, next := freshRid store0, trace := [], res := { errors := pe },
      ids := [] }
  have hidsD := foldl_processEntry_ids
    (fun c => dbEntriesGet store0 (entries.map Entry.code) c) sg strategy true uid entries
    { store := store0, next := freshRid store0, trace := [], res := { errors := pe },
      ids := [] }
  have hidsW := foldl_processEntry_ids
    (fun c => dbEntriesGet store0 (entries.map Entry.code) c) sg strategy false uid entries
    { store := store0, next := freshRid store0, trace := [], res := { errors := pe },
      ids := [] }
  have hsw := foldl_processEntry_sweep
    (fun c => dbEntriesGet store0 (entries.map Entry.code) c) sg strategy uid store0
    (entries.map Entry.code) hnd hdb entries hes
    { store := store0, next := freshRid store0, trace := [], res := { errors := pe },
      ids := [] } ⟨rfl, fun r hr => Or.inl hr, fun r hr _ => hr⟩
  have hfrL := foldl_processLocation_dry_frame
    (fun c => mapGet (chunkedRows none storeL (entriesL.map Entry.code) 1000) c)
    strategyL uidL entriesL
    { store := storeL, next := freshRid storeL, trace := [], res := { errors := peL },
      memo := [] }
  refine ⟨?_, ?_, ?_, hfrL.1, hfrL.2.1⟩
  · unfold uploadSimpleData
    by_cases hiud : strategy = Strategy.insertUpdateDelete
    · subst hiud
      simp only [reduceIte]
      simp only [hrel.1]
      congr 1
      rw [hfr.1, hidsD, hidsW]
      dsimp only
      simp only [List.nil_append]
      rw [hsw.1]
    · simp only [if_neg hiud]
      exact hrel.1
  · unfold uploadSimpleData
    by_cases hiud : strategy = Strategy.insertUpdateDelete
    · subst hiud
      simp only [reduceIte]
      exact hfr.1
    · simp only [if_neg hiud]
      exact hfr.1
  · unfold uploadSimpleData
    by_cases hiud : strategy = Strategy.insertUpdateDelete
    · subst hiud
      simp only [reduceIte]
      exact hfr.2.1
    · simp only [if_neg hiud]
      exact hfr.2.1



/-- C6 (amended): for `upload_simple_data`, the partition invariant holds
exactly as claimed: `sent = created + updated + (number of candidates
rejected with an insert-on-existing or update-on-missing error)`, the
reconciliation stage appends exactly one error per rejected candidate, and
`sent + |parse errors| = created + updated + |errors|`.  For
`upload_locations`, a parent-resolution failure also consumes a candidate,
so the equation becomes `sent + |parse errors| = created + updated +
|errors|`, and the errors appended during reconciliation are at least the
strategy rejections. -/
theorem C6_amended (uid : Int) (sg : String) (strategy : Strategy) (dryRun : Bool)
    (now : Nat) (store0 : List Record) (entries : List Entry) (pe : List String)
    (uidL : Int) (strategyL : Strategy) (dryRunL : Bool) (storeL : List Record)
    (entriesL : List Entry) (peL : List String) (m : Memo) :
    ((uploadSimpleData uid sg strategy dryRun now store0 entries pe).res.sent + pe.length =
       (uploadSimpleData uid sg strategy dryRun now store0 entries pe).res.created +
       (uploadSimpleData uid sg strategy dryRun now store0 entries pe).res.updated +
       (uploadSimpleData uid sg strategy dryRun now store0 entries pe).res.errors.length ∧
     (uploadSimpleData uid sg strategy dryRun now store0 entries pe).res.errors.length =
       pe.length + entries.countP (fun e =>
         strategyRejects (dbEntriesGet store0 (entries.map Entry.code) e.code) strategy) ∧
     (uploadSimpleData uid sg strategy dryRun now store0 entries pe).res.sent =
       (uploadSimpleData uid sg strategy dryRun now store0 entries pe).res.created +
       (uploadSimpleData uid sg strategy dryRun now store0 entries pe).res.updated +
       entries.countP (fun e =>
         strategyRejects (dbEntriesGet store0 (entries.map Entry.code) e.code) strategy)) ∧
    ((uploadLocations uidL strategyL dryRunL storeL entriesL peL m).res.sent + peL.length =
       (uploadLocations uidL strategyL dryRunL storeL entriesL peL m).res.created +
       (uploadLocations uidL strategyL dryRunL storeL entriesL peL m).res.updated +
       (uploadLocations uidL strategyL dryRunL storeL entriesL peL m).res.errors.length ∧
     peL.length + entriesL.countP (fun e =>
         strategyRejects
           (mapGet (chunkedRows none storeL (entriesL.map Entry.code) 1000) e.code)
           strategyL) ≤
       (uploadLocations uidL strategyL dryRunL storeL entriesL peL m).res.errors.length) := by
  have hpart : (entries.foldl
      (processEntry (fun c => dbEntriesGet store0 (entries.map Entry.code) c) sg strategy
        dryRun uid)
      { store := store0, next := freshRid store0, trace := [], res := { errors := pe },
        ids := [] }).res.sent + pe.length =
      (entries.foldl
        (processEntry (fun c => dbEntriesGet store0 (entries.map Entry.code) c) sg strategy
          dryRun uid)
        { store := store0, next := freshRid store0, trace := [], res := { errors := pe },
          ids := [] }).res.created +
      (entries.foldl
        (processEntry (fun c => dbEntriesGet store0 (entries.map Entry.code) c) sg strategy
          dryRun uid)
        { store := store0, next := freshRid store0, trace := [], res := { errors := pe },
          ids := [] }).res.updated +
      (entries.foldl
        (processEntry (fun c => dbEntriesGet store0 (entries.map Entry.code) c) sg strategy
          dryRun uid)
        { store := store0, next := freshRid store0, trace := [], res := { errors := pe },
          ids := [] }).res.errors.length :=
    foldl_processEntry_partition
      (fun c => dbEntriesGet store0 (entries.map Entry.code) c) sg strategy dryRun uid
      pe.length entries _ (by simp)
  have herr : (entries.foldl
      (processEntry (fun c => dbEntriesGet store0 (entries.map Entry.code) c) sg strategy
        dryRun uid)
      { store := store0, next := freshRid store0, trace := [], res := { errors := pe },
        ids := [] }).res.errors.length =
      pe.length + entries.countP (fun e =>
        strategyRejects (dbEntriesGet store0 (entries.map Entry.code) e.code) strategy) :=
    foldl_processEntry_errors
      (fun c => dbEntriesGet store0 (entries.map Entry.code) c) sg strategy dryRun uid
      entries _
  have hpartL : (entriesL.foldl
      (processLocation
        (fun c => mapGet (chunkedRows none storeL (entriesL.map Entry.code) 1000) c)
        strategyL dryRunL uidL)
      { store := storeL, next := freshRid storeL, trace := [], res := { errors := peL },
        memo := [] }).res.sent + peL.length =
      (entriesL.foldl
        (processLocation
          (fun c => mapGet (chunkedRows none storeL (entriesL.map Entry.code) 1000) c)
          strategyL dryRunL uidL)
        { store := storeL, next := freshRid storeL, trace := [], res := { errors := peL },
          memo := [] }).res.created +
      (entriesL.foldl
        (processLocation
          (fun c => mapGet (chunkedRows none storeL (entriesL.map Entry.code) 1000) c)
          strategyL dryRunL uidL)
        { store := storeL, next := freshRid storeL, trace := [], res := { errors := peL },
          memo := [] }).res.updated +
      (entriesL.foldl
        (processLocation
          (fun c => mapGet (chunkedRows none storeL (entriesL.map Entry.code) 1000) c)
          strategyL dryRunL uidL)
        { store := storeL, next := freshRid storeL, trace := [], res := { errors := peL },
          memo := [] }).res.errors.length :=
    foldl_processLocation_partition
      (fun c => mapGet (chunkedRows none storeL (entriesL.map Entry.code) 1000) c)
      strategyL dryRunL uidL peL.length entriesL _ (by simp)
  have hgeL : peL.length + entriesL.countP (fun e =>
      strategyRejects
        (mapGet (chunkedRows none storeL (entriesL.map Entry.code) 1000) e.code)
        strategyL) ≤
      (entriesL.foldl
        (processLocation
          (fun c => mapGet (chunkedRows none storeL (entriesL.map Entry.code) 1000) c)
          strategyL dryRunL uidL)
        { store := storeL, next := freshRid storeL, trace := [], res := { errors := peL },
          memo := [] }).res.errors.length :=
    foldl_processLocation_errors_ge
      (fun c => mapGet (chunkedRows none storeL (entriesL.map Entry.code) 1000) c)
      strategyL dryRunL uidL entriesL
      { store := storeL, next := freshRid storeL, trace := [], res := { errors := peL },
        memo := [] }
  have g1 : (uploadSimpleData uid sg strategy dryRun now store0 entries pe).res.sent +
      pe.length =
      (uploadSimpleData uid sg strategy dryRun now store0 entries pe).res.created +
      (uploadSimpleData uid sg strategy dryRun now store0 entries pe).res.updated +
      (uploadSimpleData uid sg strategy dryRun now store0 entries pe).res.errors.length := by
    unfold uploadSimpleData
    by_cases hiud : strategy = Strategy.insertUpdateDelete
    · subst hiud
      simp only [reduceIte]
      cases dryRun <;> (try simp only [reduceIte]) <;> exact hpart
    · simp only [if_neg hiud]
      exact hpart
  have g2 : (uploadSimpleData uid sg strategy dryRun now store0 entries pe).res.errors.length =
      pe.length + entries.countP (fun e =>
        strategyRejects (dbEntriesGet store0 (entries.map Entry.code) e.code) strategy) := by
    unfold uploadSimpleData
    by_cases hiud : strategy = Strategy.insertUpdateDelete
    · subst hiud
      simp only [reduceIte]
      cases dryRun <;> (try simp only [reduceIte]) <;> exact herr
    · simp only [if_neg hiud]
      exact herr
  exact ⟨⟨g1, g2, by omega⟩, hpartL, hgeL⟩



/-- C4: under INSERT_UPDATE_DELETE, `upload_simple_data` archives exactly
the initially-valid records whose code is not among the candidate codes
(rejected candidates still count as present): the returned `deleted` count
equals the number of such records on dry and committing runs alike; on a
committing run the trace contains one single bulk archive of exactly those
records, stamped with the acting user and "now"; afterwards every
still-valid record carries a candidate code, and records that were already
invalid are untouched.  Under the other three strategies `deleted` is 0 and
no archive operation is issued. -/
theorem C4_archival_sweep (uid : Int) (sg : String) (strategy : Strategy)
    (dryRun : Bool) (now : Nat) (store0 : List Record) (entries : List Entry)
    (pe : List String) (hnd : (store0.map Record.rid).Nodup) :
    (strategy ≠ .insertUpdateDelete →
       (uploadSimpleData uid sg strategy dryRun now store0 entries pe).res.deleted = 0 ∧
       (uploadSimpleData uid sg strategy dryRun now store0 entries pe).trace.filter
         isArchive = []) ∧
    (strategy = .insertUpdateDelete →
       (uploadSimpleData uid sg strategy dryRun now store0 entries pe).res.deleted =
         (store0.filter (archiveFilter (entries.map Entry.code))).length) ∧
    (strategy = .insertUpdateDelete → dryRun = false →
       ((uploadSimpleData uid sg strategy dryRun now store0 entries pe).trace.filter
          isArchive =
          [.bulkArchive (store0.filter (archiveFilter (entries.map Entry.code))) uid now]) ∧
       (∀ r ∈ (uploadSimpleData uid sg strategy dryRun now store0 entries pe).store,
          r.validityTo = none → r.code ∈ entries.map Entry.code) ∧
       (∀ r ∈ store0, r.validityTo ≠ none →
          r ∈ (uploadSimpleData uid sg strategy dryRun now store0 entries pe).store)) := by
  have hdb : ∀ c ex, (fun c => dbEntriesGet store0 (entries.map Entry.code) c) c = some ex →
      ex ∈ store0 ∧ ex.code = c ∧ ex.validityTo = none := by
    intro c ex h
    exact dbEntriesGet_spec store0 (entries.map Entry.code) c ex h
  have hes : ∀ e ∈ entries, (entries.map Entry.code).contains e.code = true := by
    intro e he
    simpa using List.mem_map_of_mem Entry.code he
  have hfr := foldl_processEntry_dry_frame
    (fun c => dbEntriesGet store0 (entries.map Entry.code) c) sg strategy uid entries
    { store := store0, next := freshRid store0, trace := [], res := { errors := pe },
      ids := [] }
  have hidsD := foldl_processEntry_ids
    (fun c => dbEntriesGet store0 (entries.map Entry.code) c) sg strategy true uid entries
    { store := store0, next := freshRid store0, trace := [], res := { errors := pe },
      ids := [] }
  have hidsW := foldl_processEntry_ids
    (fun c => dbEntriesGet store0 (entries.map Entry.code) c) sg strategy false uid entries
    { store := store0, next := freshRid store0, trace := [], res := { errors := pe },
      ids := [] }
  have hsw := foldl_processEntry_sweep
    (fun c => dbEntriesGet store0 (entries.map Entry.code) c) sg strategy uid store0
    (entries.map Entry.code) hnd hdb entries hes
    { store := store0, next := freshRid store0, trace := [], res := { errors := pe },
      ids := [] } ⟨rfl, fun r hr => Or.inl hr, fun r hr _ => hr⟩
  have hdel := foldl_processEntry_deleted
    (fun c => dbEntriesGet store0 (entries.map Entry.code) c) sg strategy dryRun uid entries
    { store := store0, next := freshRid store0, trace := [], res := { errors := pe },
      ids := [] }
  have hloopD := foldl_processEntry_loopTrace
    (fun c => dbEntriesGet store0 (entries.map Entry.code) c) sg strategy dryRun uid entries
    { store := store0, next := freshRid store0, trace := [], res := { errors := pe },
      ids := [] } loopTrace_nil
  have hloopW := foldl_processEntry_loopTrace
    (fun c => dbEntriesGet store0 (entries.map Entry.code) c) sg strategy false uid entries
    { store := store0, next := freshRid store0, trace := [], res := { errors := pe },
      ids := [] } loopTrace_nil
  refine ⟨?_, ?_, ?_⟩
  · intro hne
    constructor
    · unfold uploadSimpleData
      simp only [if_neg hne]
      exact hdel
    · unfold uploadSimpleData
      simp only [if_neg hne]
      obtain ⟨us, htr, hall⟩ := hloopD
      rw [htr]
      exact noArchive_flatten us hall
  · intro hiud
    subst hiud
    unfold uploadSimpleData
    simp only [reduceIte]
    cases dryRun with
    | true =>
      (try simp only [Bool.false_eq_true, if_false, eq_self_iff_true, if_true])
      rw [hfr.1, hidsD]
      simp only [List.nil_append]
    | false =>
      (try simp only [Bool.false_eq_true, if_false, eq_self_iff_true, if_true])
      rw [hidsW]
      simp only [List.nil_append]
      rw [hsw.1]
  · intro hiud hdr
    subst hiud
    subst hdr
    constructor
    · unfold uploadSimpleData
      simp only [reduceIte]
      simp only [Bool.false_eq_true, if_false]
      rw [List.filter_append]
      obtain ⟨us, htr, hall⟩ := hloopW
      rw [htr, noArchive_flatten us hall]
      simp only [List.nil_append]
      rw [hidsW]
      simp only [List.nil_append]
      rw [hsw.1]
      simp [isArchive]
    constructor
    · intro r hr hv
      unfold uploadSimpleData at hr
      simp only [reduceIte] at hr
      simp only [Bool.false_eq_true, if_false] at hr
      dsimp only at hr
      rw [List.mem_map] at hr
      obtain ⟨r0, hr0, hgr⟩ := hr
      by_cases haf : archiveFilter
          ((entries.foldl (processEntry
            (fun c => dbEntriesGet store0 (entries.map Entry.code) c) sg
            Strategy.insertUpdateDelete false uid)
            { store := store0, next := freshRid store0, trace := [],
              res := { errors := pe }, ids := [] }).ids) r0 = true
      · rw [if_pos haf] at hgr
        rw [← hgr] at hv
        simp at hv
      · rw [if_neg haf] at hgr
        rw [hidsW] at haf
        simp only [List.nil_append] at haf
        rw [← hgr] at hv
        unfold archiveFilter at haf
        rw [Bool.and_eq_true] at haf
        push_neg at haf
        rw [← hgr]
        have hvn : r0.validityTo.isNone = true := by
          rw [hv]
          rfl
        have hcont : (entries.map Entry.code).contains r0.code = true := by
          by_cases hc : (entries.map Entry.code).contains r0.code = true
          · exact hc
          · exfalso
            have hcf : (entries.map Entry.code).contains r0.code = false := by
              cases hcc : (entries.map Entry.code).contains r0.code
              · rfl
              · exact absurd hcc hc
            have hnc : (!(entries.map Entry.code).contains r0.code) = true := by
              rw [hcf]
              rfl
            exact haf hnc hvn
        simpa using hcont
    · intro r hr0 hv
      unfold uploadSimpleData
      simp only [reduceIte]
      simp only [Bool.false_eq_true, if_false]
      dsimp only
      have hmem := hsw.2.2 r hr0 hv
      rw [List.mem_map]
      refine ⟨r, hmem, ?_⟩
      have haf : archiveFilter
          ((entries.foldl (processEntry
            (fun c => dbEntriesGet store0 (entries.map Entry.code) c) sg
            Strategy.insertUpdateDelete false uid)
            { store := store0, next := freshRid store0, trace := [],
              res := { errors := pe }, ids := [] }).ids) r = false := by
        unfold archiveFilter
        have : r.validityTo.isNone = false := by
          cases hvt : r.validityTo
          · exact absurd hvt hv
          · rfl
        rw [this]
        simp
      rw [if_neg]
      rw [haf]
      simp


theorem chunkListFuel_flatten {α : Type _} (size : Nat) (hs : 0 < size) :
    ∀ (fuel : Nat) (l : List α), l.length ≤ fuel →
      (chunkListFuel fuel l size).flatten = l
  | 0, l, h => by
    have hl : l = [] := List.length_eq_zero.mp (Nat.le_zero.mp h)
    subst hl
    rfl
  | _ + 1, [], _ => rfl
  | fuel + 1, a :: l, h => by
    have hlen : ((a :: l).drop size).length ≤ fuel := by
      rw [List.length_drop]
      simp only [List.length_cons] at h ⊢
      omega
    show ((a :: l).take size :: chunkListFuel fuel ((a :: l).drop size) size).flatten
        = a :: l
    rw [List.flatten_cons, chunkListFuel_flatten size hs fuel _ hlen]
    exact List.take_append_drop size (a :: l)

theorem chunkListFuel_length_le {α : Type _} (size : Nat) :
    ∀ (fuel : Nat) (l : List α) (ch : List α),
      ch ∈ chunkListFuel fuel l size → ch.length ≤ size
  | 0, l, ch, h => absurd h (by simp [chunkListFuel])
  | _ + 1, [], ch, h => absurd h (by simp [chunkListFuel])
  | fuel + 1, a :: l, ch, h => by
    rcases List.mem_cons.mp h with rfl | h2
    · exact List.length_take_le _ _
    · exact chunkListFuel_length_le size fuel _ ch h2

theorem chunkList_flatten {α : Type _} (l : List α) (size : Nat) (hs : 0 < size) :
    (chunkList l size).flatten = l := by
  unfold chunkList
  rw [if_neg (Nat.pos_iff_ne_zero.mp hs)]
  exact chunkListFuel_flatten size hs l.length l le_rfl

theorem chunkList_mem_length {α : Type _} {l ch : List α} {size : Nat}
    (h : ch ∈ chunkList l size) : ch.length ≤ size := by
  unfold chunkList at h
  by_cases hz : size = 0
  · rw [if_pos hz] at h
    simp at h
  · rw [if_neg hz] at h
    exact chunkListFuel_length_le size l.length l ch h

theorem filter_and_const {α : Type _} (p : α → Bool) (b : Bool) (l : List α) :
    l.filter (fun a => p a && b) = if b then l.filter p else [] := by
  cases b <;> simp

theorem queryValidIn_filter_code (store : List Record) (codes : List String)
    (c : String) (lim : Option Nat) (hfit : ∀ n, lim = some n → codes.length ≤ n) :
    (queryValidIn lim store codes).filter (fun r => r.code == c) =
      if codes.contains c then store.filter (fun r => isValid r && r.code == c)
      else [] := by
  have hbase : (store.filter
        (fun r => isValid r && codes.contains r.code)).filter (fun r => r.code == c) =
      if codes.contains c then store.filter (fun r => isValid r && r.code == c)
      else [] := by
    rw [List.filter_filter]
    have hpt : ∀ r ∈ store,
        ((r.code == c) && (isValid r && codes.contains r.code)) =
        ((isValid r && (r.code == c)) && codes.contains c) := by
      intro r _
      by_cases hc : (r.code == c) = true
      · have hcc : r.code = c := by simpa using hc
        rw [hc, hcc]
        cases isValid r <;> cases codes.contains c <;> rfl
      · have hcf : (r.code == c) = false := by
          cases hx : (r.code == c)
          · rfl
          · exact absurd hx hc
        rw [hcf]
        cases isValid r <;> cases codes.contains r.code <;> cases codes.contains c <;> rfl
    rw [List.filter_congr hpt]
    exact filter_and_const (fun r => isValid r && (r.code == c)) (codes.contains c) store
  cases lim with
  | none => exact hbase
  | some n =>
    have hred : queryValidIn (some n) store codes =
        if n < codes.length then []
        else store.filter (fun r => isValid r && codes.contains r.code) := rfl
    rw [hred, if_neg (by have := hfit n rfl; omega)]
    exact hbase

theorem foldl_append_eq_flatten {α β : Type _} (f : β → List α) :
    ∀ (us : List β) (acc : List α),
      us.foldl (fun a u => a ++ f u) acc = acc ++ (us.map f).flatten
  | [], acc => by simp
  | u :: us, acc => by
    rw [List.foldl_cons, foldl_append_eq_flatten f us]
    simp

theorem chunkedRows_eq_flatten (lim : Option Nat) (store : List Record)
    (codes : List String) (size : Nat) :
    chunkedRows lim store codes size =
      ((chunkList codes size).map (fun ch => queryValidIn lim store ch)).flatten := by
  unfold chunkedRows
  rw [foldl_append_eq_flatten]
  rfl

theorem getLast?_append_or {α : Type _} (A B : List α) :
    (A ++ B).getLast? = (B.getLast?).or A.getLast? := by
  cases B with
  | nil => simp
  | cons b bs =>
    rw [List.getLast?_append_of_ne_nil A (List.cons_ne_nil b bs)]
    have hsome : (b :: bs).getLast?.isSome := by
      rw [List.getLast?_isSome]
      exact List.cons_ne_nil b bs
    obtain ⟨x, hx⟩ := Option.isSome_iff_exists.mp hsome
    rw [hx]
    rfl

theorem any_contains_flatten (c : String) (chs : List (List String)) :
    chs.any (fun ch => ch.contains c) = chs.flatten.contains c := by
  induction chs with
  | nil => rfl
  | cons ch chs ih => simp_all [Bool.or_assoc]



theorem getLast_filter_chunks (store : List Record) (lim : Option Nat) (c : String)
    (size : Nat) (hfit : ∀ n, lim = some n → size ≤ n) :
    ∀ chunks : List (List String), (∀ ch ∈ chunks, ch.length ≤ size) →
      (((chunks.map (fun ch => queryValidIn lim store ch)).flatten).filter
          (fun r => r.code == c)).getLast? =
        if chunks.any (fun ch => ch.contains c) then
          (store.filter (fun r => isValid r && r.code == c)).getLast?
        else none
  | [], _ => by simp
  | ch :: chunks, hlen => by
    rw [List.map_cons, List.flatten_cons, List.filter_append, getLast?_append_or]
    rw [getLast_filter_chunks store lim c size hfit chunks
      (fun x hx => hlen x (List.mem_cons_of_mem ch hx))]
    have hch : (queryValidIn lim store ch).filter (fun r => r.code == c) =
        if ch.contains c then store.filter (fun r => isValid r && r.code == c)
        else [] := by
      apply queryValidIn_filter_code
      intro n hn
      exact le_trans (hlen ch (List.mem_cons_self ch chunks)) (hfit n hn)
    rw [hch, List.any_cons]
    cases hc : ch.contains c <;>
      cases ha : chunks.any (fun x => x.contains c) <;>
      cases hL : (store.filter (fun r => isValid r && r.code == c)).getLast? <;>
      simp [Option.or, hL]

theorem mapGet_chunked_eq (lim : Option Nat) (store : List Record)
    (codes : List String) (size : Nat) (hs : 0 < size)
    (hfit : ∀ n, lim = some n → size ≤ n) (c : String) :
    mapGet (chunkedRows lim store codes size) c =
      mapGet (queryValidIn none store codes) c := by
  unfold mapGet
  rw [chunkedRows_eq_flatten]
  rw [getLast_filter_chunks store lim c size hfit (chunkList codes size)
    (fun ch hch => chunkList_mem_length hch)]
  rw [queryValidIn_filter_code store codes c none (by intro n hn; cases hn)]
  have hany : (chunkList codes size).any (fun ch => ch.contains c) =
      codes.contains c := by
    rw [any_contains_flatten, chunkList_flatten codes size hs]
  rw [hany]
  cases h : codes.contains c <;> simp



/-- C7 (amended): only the location upload path chunks the existence lookup
(`upload_simple_data` issues one unchunked query — see the counterexample);
the chunked resolution itself is correct: for every store, code set and
probed code, resolving through chunks of any positive size no larger than
the backend's IN-list limit yields a mapping identical to one unchunked
query on an unlimited backend, and so does the chunked resolution on an
unlimited backend (the form `upload_locations` uses). -/
theorem C7_amended (store : List Record) (codes : List String) (c : String)
    (limit size : Nat) (hs : 0 < size) (hfit : size ≤ limit) :
    mapGet (chunkedRows (some limit) store codes size) c =
      mapGet (queryValidIn none store codes) c ∧
    mapGet (chunkedRows none store codes size) c =
      mapGet (queryValidIn none store codes) c :=
  ⟨mapGet_chunked_eq (some limit) store codes size hs
      (fun n hn => by injection hn with h; subst h; exact hfit) c,
   mapGet_chunked_eq none store codes size hs (fun n hn => by cases hn) c⟩

/-- Witness for C7 (amended): 2500 candidate codes against a backend with a
1000-item IN-list limit, chunk size 1000. -/
theorem C7_amended_witness :
    0 < 1000 ∧ 1000 ≤ 1000 ∧
    mapGet (chunkedRows (some 1000) exStore1 exCodes2500 1000) "c0" =
      mapGet (queryValidIn none exStore1 exCodes2500) "c0" :=
  ⟨by decide, by decide,
   (C7_amended exStore1 exCodes2500 "c0" 1000 1000 (by decide) (by decide)).1⟩



set_option maxHeartbeats 1000000 in
theorem hfResolveAndWrite_rel (locStore : List Record) (spl ipl : List PLRecord)
    (strategy : Strategy) (dryRun : Bool) (uid : Int) (f : Entry)
    (existing : Option HFRecord) (st1 st2 : HSt)
    (hres : st1.res = st2.res) (hpm : st1.pm = st2.pm) :
    HRel (hfResolveAndWrite locStore spl ipl strategy dryRun uid st1 f existing)
         (hfResolveAndWrite locStore spl ipl strategy dryRun uid st2 f existing) := by
  unfold hfResolveAndWrite
  cases hpop : (popField f.fields "district_code").1 with
  | none =>
    simp only [hpop]
    exact rfl
  | some dc =>
    simp only [hpop, hpm]
    cases hloc : (getParentLocation locStore st2.pm dc).2 with
    | none => exact rfl
    | some locRec =>
      simp only [hloc]
      split <;> split <;> (try split) <;> (try split) <;> (try split) <;>
        (try split) <;> simp [HRel, hres, hpm]



theorem processHealthFacility_rel (dbGet : String → Option HFRecord)
    (locStore : List Record) (spl ipl : List PLRecord) (strategy : Strategy)
    (dryRun : Bool) (uid : Int) (f : Entry) (st1 st2 : HSt)
    (hres : st1.res = st2.res) (hpm : st1.pm = st2.pm) :
    HRel (processHealthFacility dbGet locStore spl ipl strategy dryRun uid st1 f)
         (processHealthFacility dbGet locStore spl ipl strategy dryRun uid st2 f) := by
  unfold processHealthFacility
  cases hd : dbGet f.code with
  | some ex =>
    simp only [hd]
    split
    · simp [HRel, hres, hpm]
    · exact hfResolveAndWrite_rel locStore spl ipl strategy dryRun uid f (some ex)
        _ _ (by simp [hres]) (by simp [hpm])
  | none =>
    simp only [hd]
    split
    · simp [HRel, hres, hpm]
    · exact hfResolveAndWrite_rel locStore spl ipl strategy dryRun uid f none
        _ _ (by simp [hres]) (by simp [hpm])



theorem processHealthFacilities_rel (dbGet : String → Option HFRecord)
    (locStore : List Record) (spl ipl : List PLRecord) (strategy : Strategy)
    (dryRun : Bool) (uid : Int) :
    ∀ (es : List Entry) (st1 st2 : HSt), st1.res = st2.res → st1.pm = st2.pm →
      HRel (processHealthFacilities dbGet locStore spl ipl strategy dryRun uid es st1)
           (processHealthFacilities dbGet locStore spl ipl strategy dryRun uid es st2)
  | [], _, _, h1, h2 => ⟨h1, h2⟩
  | f :: es, st1, st2, h1, h2 => by
    have hstep := processHealthFacility_rel dbGet locStore spl ipl strategy dryRun uid
      f st1 st2 h1 h2
    unfold processHealthFacilities
    cases he1 : processHealthFacility dbGet locStore spl ipl strategy dryRun uid st1 f with
    | error e1 =>
      cases he2 : processHealthFacility dbGet locStore spl ipl strategy dryRun uid st2 f with
      | error e2 =>
        rw [he1, he2] at hstep
        exact hstep
      | ok s2 =>
        rw [he1, he2] at hstep
        exact hstep.elim
    | ok s1 =>
      cases he2 : processHealthFacility dbGet locStore spl ipl strategy dryRun uid st2 f with
      | error e2 =>
        rw [he1, he2] at hstep
        exact hstep.elim
      | ok s2 =>
        rw [he1, he2] at hstep
        exact processHealthFacilities_rel dbGet locStore spl ipl strategy dryRun uid
          es s1 s2 hstep.1 hstep.2

/-- C8 (amended): the parent-location memo is cleared when
`upload_health_facilities` or `upload_locations` begins, so their outcomes
do not depend on the parent memo an earlier call left behind; and although
the pricelist memo is never cleared (stale entries flow into the records
written — see the counterexample), the returned `UploadResult` itself does
not depend on the initial pricelist memo. -/
theorem C8_amended (uid : Int) (strategy : Strategy) (dryRun : Bool)
    (locStore : List Record) (spl ipl : List PLRecord) (hfStore : List HFRecord)
    (entries : List Entry) (pe : List String) (pm0 pm1 : Memo) (qm0 : PLMemo)
    (uidL : Int) (strategyL : Strategy) (dryRunL : Bool) (storeL : List Record)
    (entriesL : List Entry) (peL : List String) (m0 m1 : Memo) :
    uploadHealthFacilities uid strategy dryRun locStore spl ipl hfStore entries pe
        pm0 qm0 =
      uploadHealthFacilities uid strategy dryRun locStore spl ipl hfStore entries pe
        pm1 qm0 ∧
    (uploadHealthFacilities uid strategy dryRun locStore spl ipl hfStore entries pe
        pm0 qm0).map HSt.res =
      (uploadHealthFacilities uid strategy dryRun locStore spl ipl hfStore entries pe
        pm0 []).map HSt.res ∧
    uploadLocations uidL strategyL dryRunL storeL entriesL peL m0 =
      uploadLocations uidL strategyL dryRunL storeL entriesL peL m1 := by
  refine ⟨rfl, ?_, rfl⟩
  have hrel := processHealthFacilities_rel
    (fun c => hfMapGet (hfQueryValidIn hfStore (entries.map Entry.code)) c)
    locStore spl ipl strategy dryRun uid entries
    { store := hfStore, next := hfFreshRid hfStore, trace := [],
      res := { errors := pe }, pm := [], qm := qm0 }
    { store := hfStore, next := hfFreshRid hfStore, trace := [],
      res := { errors := pe }, pm := [], qm := [] } rfl rfl
  unfold uploadHealthFacilities
  cases he1 : processHealthFacilities
      (fun c => hfMapGet (hfQueryValidIn hfStore (entries.map Entry.code)) c)
      locStore spl ipl strategy dryRun uid entries
      { store := hfStore, next := hfFreshRid hfStore, trace := [],
        res := { errors := pe }, pm := [], qm := qm0 } with
  | error e1 =>
    cases he2 : processHealthFacilities
        (fun c => hfMapGet (hfQueryValidIn hfStore (entries.map Entry.code)) c)
        locStore spl ipl strategy dryRun uid entries
        { store := hfStore, next := hfFreshRid hfStore, trace := [],
          res := { errors := pe }, pm := [], qm := [] } with
    | error e2 =>
      rw [he1, he2] at hrel
      rw [hrel]
    | ok s2 =>
      rw [he1, he2] at hrel
      exact hrel.elim
  | ok s1 =>
    cases he2 : processHealthFacilities
        (fun c => hfMapGet (hfQueryValidIn hfStore (entries.map Entry.code)) c)
        locStore spl ipl strategy dryRun uid entries
        { store := hfStore, next := hfFreshRid hfStore, trace := [],
          res := { errors := pe }, pm := [], qm := [] } with
    | error e2 =>
      rw [he1, he2] at hrel
      exact hrel.elim
    | ok s2 =>
      rw [he1, he2] at hrel
      simp [Except.map, hrel.1]

/-- Witness for C2 (amended): the dry INSERT_UPDATE_DELETE run on one
existing row and two candidates returns the same result as the committing
run. -/
theorem C2_amended_witness :
    (([exRecA] : List Record).map Record.rid).Nodup ∧
    (uploadSimpleData 7 "Item" .insertUpdateDelete true 99 [exRecA]
        [exEntA, exEntB] []).res =
      (uploadSimpleData 7 "Item" .insertUpdateDelete false 99 [exRecA]
        [exEntA, exEntB] []).res :=
  ⟨by decide,
   (C2_amended 7 "Item" .insertUpdateDelete 99 [exRecA] [exEntA, exEntB] []
      7 .insert [] [exEntR] [] [] (by decide)).1⟩

/-- Witness for C4: the INSERT_UPDATE_DELETE run with existing rows `A`, `C`
and candidates `[A, B]` reports one archived row. -/
theorem C4_archival_sweep_witness :
    (([exRecA, exRecC] : List Record).map Record.rid).Nodup ∧
    (uploadSimpleData 7 "Item" .insertUpdateDelete false 99 [exRecA, exRecC]
        [exEntA, exEntB] []).res.deleted =
      ([exRecA, exRecC].filter
        (archiveFilter ([exEntA, exEntB].map Entry.code))).length :=
  ⟨by decide,
   (C4_archival_sweep 7 "Item" .insertUpdateDelete false 99 [exRecA, exRecC]
      [exEntA, exEntB] [] (by decide)).2.1 rfl⟩

end Tools
